import Mathlib

/-!
# Xtar: chunked split / join with optional per-chunk stream encryption

A shallow embedding of `xtar.go` (`compressAndSplit`, `joinAndDecompress`,
`encryptWriter`, `decryptReader`, `checksum`) and the properties of the
chunk pipeline.

Modelling conventions.

* A file system is a map from path strings to byte contents, together with
  the paths on which `os.Create` and `os.Open` fail, on which `os.Stat` fails
  with an error other than `os.ErrNotExist`, on whose open file `Stat` fails,
  and from which `io.Copy` fails.
* The source of `compressAndSplit` is the script of results of the successive
  `input.Read(buf)` calls; once the script is used up every further read
  returns `(0, io.EOF)`.
* The library primitives (`sha256.Sum256`, `rand.Read`, the CFB stream of
  `crypto/cipher`) are parameters collected in `Env`; what is assumed of them
  is collected in `Env.Lawful`.
* `int64` values of `compressAndSplit` are modelled in `Int` without wrap
  around: the counter `written` never exceeds the number of bytes read so far
  plus the size of the read buffer, which stays below `2 ^ 63` for every
  source a file system can hold. `parseSize` multiplies a user-supplied
  number and is modelled with wrap around.
* A run-time panic of the Go program (a slice bound out of range, a call on
  a nil interface) is an explicit outcome.
-/

namespace Xtar

/-- A byte. -/
abbrev Byte := Fin 256

/-- The errors the program can return. -/
inductive Err where
  /-- `os.Open` of the source failed. -/
  | openFailed
  /-- `os.Create` or `os.Open` refused the path. -/
  | denied (path : String)
  /-- `aes.NewCipher`: the key is not 16, 24 or 32 bytes long. -/
  | keySize (len : Nat)
  /-- `io.EOF` out of `io.ReadFull`: nothing could be read. -/
  | eof
  /-- `io.ErrUnexpectedEOF` out of `io.ReadFull`. -/
  | unexpectedEOF
  /-- `errors.New("encryption key mismatch or tampered data")`. -/
  | keyMismatch
  /-- `fmt.Errorf("error decrypting %s: %v", part, err)`. -/
  | decrypting (part : String) (cause : Err)
  /-- `os.Stat` failed with an error other than `os.ErrNotExist`. -/
  | stat (path : String)
  /-- `os.Open` of a path that does not exist. -/
  | notExist (path : String)
  /-- `Stat` on an open file failed. -/
  | fstat (path : String)
  /-- `io.Copy` from the file at `path` failed. -/
  | copy (path : String)
  deriving DecidableEq

/-- How a call ends: `return nil`, `return err`, or a run-time panic. -/
inductive Outcome where
  | ok
  | error (e : Err)
  | panic
  deriving DecidableEq

/-- The error value of one `input.Read`: `nil`, `io.EOF`, or another error. -/
inductive ReadErr where
  | none
  | eof
  | fail
  deriving DecidableEq

/-- The result `(n, err)` of one `input.Read(buf)`: `data` is `buf[:n]`. -/
structure ReadRes where
  data : List Byte
  err : ReadErr
  deriving DecidableEq

/-- The file system: contents by path, and which calls fail on which paths. -/
structure FS where
  files : String → Option (List Byte)
  /-- The paths `os.Create` and `os.Open` fail on. -/
  denied : String → Bool
  /-- The paths `os.Stat` fails on with an error other than `os.ErrNotExist`
  (a component of the path is not a directory, for one). -/
  statFails : String → Bool := fun _ => false
  /-- The paths on whose open file `Stat` fails. -/
  fstatFails : String → Bool := fun _ => false
  /-- The paths an `io.Copy` from which fails, with the number of bytes it
  has written by then. -/
  copyFails : String → Option Nat := fun _ => none

/-- The result of `os.Stat(path)`: the size, `os.ErrNotExist`, or another
error. -/
inductive StatRes where
  | size (n : Nat)
  | notExist
  | failed
  deriving DecidableEq

/-- `os.Stat(path)`. -/
def osStat (fs : FS) (path : String) : StatRes :=
  if fs.statFails path then .failed
  else
    match fs.files path with
    | none => .notExist
    | some c => .size c.length

/-- `os.Open(path)`: the content the open file delivers, or the error. -/
def osOpen (fs : FS) (path : String) : Except Err (List Byte) :=
  if fs.denied path then .error (.denied path)
  else
    match fs.files path with
    | none => .error (.notExist path)
    | some c => .ok c

/-- Result of `os.Create(name)` when it succeeds: the file exists and is empty. -/
def FS.create (fs : FS) (name : String) : FS :=
  { fs with files := fun p => if p = name then some [] else fs.files p }

/-- A successful `Write(data)` on the open file `name`: the bytes are appended. -/
def FS.append (fs : FS) (name : String) (data : List Byte) : FS :=
  { fs with files := fun p =>
      if p = name then some ((fs.files name).getD [] ++ data) else fs.files p }

/-- The library primitives the program is built on; `σ` is the state of a
`cipher.Stream`. -/
structure Env (σ : Type) where
  /-- `sha256.Sum256`. -/
  sha256 : List Byte → List Byte
  /-- The bytes the `i`-th call `rand.Read(iv)` puts into `iv`. -/
  rand : Nat → List Byte
  /-- `cipher.NewCFBEncrypter(block, iv)`, the block being given by its key. -/
  newCFBEncrypter : List Byte → List Byte → σ
  /-- `cipher.NewCFBDecrypter(block, iv)`. -/
  newCFBDecrypter : List Byte → List Byte → σ
  /-- `Stream.XORKeyStream(dst, src)`: the output and the advanced stream. -/
  xorKeyStream : σ → List Byte → List Byte × σ

/-- `aes.BlockSize`. -/
def aesBlockSize : Nat := 16

/-- Size of the read buffer: `buf := make([]byte, 4096)`. -/
def bufSize : Nat := 4096

/-- The key lengths `aes.NewCipher` accepts. -/
def validKeyLen (key : List Byte) : Prop :=
  key.length = 16 ∨ key.length = 24 ∨ key.length = 32

instance (key : List Byte) : Decidable (validKeyLen key) := by
  unfold validKeyLen; infer_instance

/-- `aes.NewCipher(key)`: the block (given by its key) or a key size error. -/
def aesNewCipher (key : List Byte) : Except Err (List Byte) :=
  if validKeyLen key then .ok key else .error (.keySize key.length)

/-- `checksum(key)`: the SHA-256 digest of the key. -/
def checksum {σ : Type} (env : Env σ) (key : List Byte) : List Byte :=
  env.sha256 key

/-- `fmt.Sprintf("%02d", n)` for `n ≥ 0`: decimal, zero padded to width 2. -/
def fmt02d (n : Nat) : String :=
  if n < 10 then "0" ++ toString n else toString n

/-- `fmt.Sprintf("%s"+chunkFmt, file, part)` with `chunkFmt = ".%02d"`. -/
def chunkName (file : String) (part : Nat) : String :=
  file ++ "." ++ fmt02d part

/-- `filepath.Base(path)` with `/` as separator: the last element of the
path, trailing separators removed; `.` for the empty path, `/` for a path of
separators only. -/
def filepathBase (path : String) : String :=
  if path = "" then "."
  else
    let stripped := path.data.reverse.dropWhile (fun c => c = '/')
    let last := (stripped.takeWhile (fun c => c ≠ '/')).reverse
    if last = [] then "/" else String.mk last

/-- `outFileName := "joined_" + filepath.Base(base)`. -/
def outFileName (base : String) : String :=
  "joined_" ++ filepathBase base

/-- An `io.Writer` of `compressAndSplit`: the chunk file itself (`stream =
none`) or a `cipher.StreamWriter` over it. -/
structure Writer (σ : Type) where
  file : String
  stream : Option σ

/-- `encryptWriter(w, key)`, `w` being the open file `w`: the file system
after it, the number of `rand.Read` calls made so far, and the result. -/
def encryptWriter {σ : Type} (env : Env σ) (fs : FS) (nrand : Nat) (w : String)
    (key : List Byte) : FS × Nat × Except Err (Writer σ) :=
  match aesNewCipher key with
  | .error e => (fs, nrand, .error e)
  | .ok block =>
    let iv := env.rand nrand
    let fs1 := fs.append w iv
    let fs2 := fs1.append w ((checksum env key).take 4)
    (fs2, nrand + 1, .ok { file := w, stream := some (env.newCFBEncrypter block iv) })

/-- `io.ReadFull(r, buf)` with `len(buf) = n`, the reader being given by
the bytes still unread: the bytes read (or the error) and what is left. -/
def readFull (r : List Byte) (n : Nat) : Except Err (List Byte) × List Byte :=
  if n ≤ r.length then (.ok (r.take n), r.drop n)
  else if r = [] then (.error .eof, [])
  else (.error .unexpectedEOF, [])

/-- `decryptReader(r, key)`: the decrypting stream (or the error), and the
bytes of `r` still unread when it returns. -/
def decryptReader {σ : Type} (env : Env σ) (r : List Byte) (key : List Byte) :
    Except Err σ × List Byte :=
  match aesNewCipher key with
  | .error e => (.error e, r)
  | .ok block =>
    match readFull r aesBlockSize with
    | (.error e, r1) => (.error e, r1)
    | (.ok iv, r1) =>
      match readFull r1 4 with
      | (.error e, r2) => (.error e, r2)
      | (.ok check, r2) =>
        if check ≠ (checksum env key).take 4 then (.error .keyMismatch, r2)
        else (.ok (env.newCFBDecrypter block iv), r2)

/-- The variables of `compressAndSplit`; `written` is also the counter whose
address is handed to `showProgress`. -/
structure SplitState (σ : Type) where
  fs : FS
  part : Nat
  /-- The open chunk file, `nil` before the first chunk and after a failed
  `os.Create`. -/
  current : Option String
  writer : Option (Writer σ)
  written : Int
  /-- Number of `rand.Read` calls made. -/
  nrand : Nat

/-- The closure `writeChunk`: closes the current chunk, creates the next one
and wraps it when a key is given. -/
def writeChunk {σ : Type} (env : Env σ) (file : String) (key : Option (List Byte))
    (s : SplitState σ) : SplitState σ × Option Err :=
  let name := chunkName file s.part
  if s.fs.denied name then
    ({ s with current := none }, some (.denied name))
  else
    let fs1 := s.fs.create name
    match key with
    | none =>
      ({ s with fs := fs1, current := some name,
                writer := some { file := name, stream := none },
                part := s.part + 1 }, none)
    | some k =>
      match encryptWriter env fs1 s.nrand name k with
      | (fs2, nr, .error e) =>
        ({ s with fs := fs2, nrand := nr, current := some name, writer := none,
                  part := s.part + 1 }, some e)
      | (fs2, nr, .ok w) =>
        ({ s with fs := fs2, nrand := nr, current := some name, writer := some w,
                  part := s.part + 1 }, none)

/-- The call `writer.Write(p)`, its result dropped as in the source. The
file under the writer is open exactly when it is `current`; on a closed file
the write fails and nothing is stored. A nil writer panics (`none`). -/
def writerWrite {σ : Type} (env : Env σ) (s : SplitState σ) (p : List Byte) :
    Option (SplitState σ) :=
  match s.writer with
  | none => none
  | some w =>
    let isOpen := decide (s.current = some w.file)
    match w.stream with
    | none => some (if isOpen then { s with fs := s.fs.append w.file p } else s)
    | some st =>
      let r := env.xorKeyStream st p
      let w1 : Writer σ := { w with stream := some r.2 }
      some (if isOpen then { s with fs := s.fs.append w.file r.1, writer := some w1 }
            else { s with writer := some w1 })

/-- The body of `if n > 0 { ... }` for the buffer `data = buf[:n]`;
`Except.error` carries the state at a panic. The slices `buf[:excess]` and
`buf[excess:n]` panic when `excess < 0`; `excess < n` follows from the guard. -/
def onBuffer {σ : Type} (env : Env σ) (file : String) (splitSize : Int)
    (key : Option (List Byte)) (data : List Byte) (s : SplitState σ) :
    Except (SplitState σ) (SplitState σ) :=
  let n : Int := data.length
  if splitSize > 0 ∧ s.written + n > splitSize then
    let excess := splitSize - s.written
    if excess < 0 then .error s
    else
      match writerWrite env s (data.take excess.toNat) with
      | none => .error s
      | some s1 =>
        let s2 := (writeChunk env file key s1).1
        match writerWrite env s2 (data.drop excess.toNat) with
        | none => .error s2
        | some s3 => .ok { s3 with written := n - excess }
  else
    match writerWrite env s data with
    | none => .error s
    | some s1 => .ok { s1 with written := s.written + n }

/-- The `for` loop of `compressAndSplit` over the script of read results:
it leaves on `io.EOF` only. -/
def splitLoop {σ : Type} (env : Env σ) (file : String) (splitSize : Int)
    (key : Option (List Byte)) : List ReadRes → SplitState σ →
    Except (SplitState σ) (SplitState σ)
  | [], s => .ok s
  | r :: rs, s =>
    match (if 0 < r.data.length then onBuffer env file splitSize key r.data s else .ok s) with
    | .error s1 => .error s1
    | .ok s1 => if r.err = .eof then .ok s1 else splitLoop env file splitSize key rs s1

/-- The state `compressAndSplit` starts from. -/
def splitInit {σ : Type} (fs : FS) : SplitState σ :=
  { fs := fs, part := 0, current := none, writer := none, written := 0, nrand := 0 }

/-- `compressAndSplit(file, splitSize, key)`: `input` is the error of
`os.Open`/`Stat` or the script of reads of the source. Returns the final
state (its `fs` is the file system left behind) and the outcome. -/
def compressAndSplit {σ : Type} (env : Env σ) (fs : FS) (input : Except Err (List ReadRes))
    (file : String) (splitSize : Int) (key : Option (List Byte)) :
    SplitState σ × Outcome :=
  match input with
  | .error e => (splitInit fs, .error e)
  | .ok reads =>
    match writeChunk env file key (splitInit fs) with
    | (s0, some e) => (s0, .error e)
    | (s0, none) =>
      match splitLoop env file splitSize key reads s0 with
      | .error s1 => (s1, .panic)
      | .ok s1 => ({ s1 with current := none }, .ok)

/-- The variables of `joinAndDecompress`, and the log of the paths it has
called `os.Open` on. -/
structure JoinState where
  fs : FS
  totalSize : Int
  written : Int
  opened : List String

/-- The first loop of `joinAndDecompress`: sums the sizes of the chunks up to
the first one `os.Stat` reports as not existing; any other error of `os.Stat`
is returned. `none`: the fuel ran out. -/
def totalSizeLoop (fs : FS) (base : String) : Nat → Nat → Int → Option (Except Err Int)
  | 0, _, _ => none
  | fuel + 1, i, acc =>
    match osStat fs (chunkName base i) with
    | .notExist => some (.ok acc)
    | .failed => some (.error (.stat (chunkName base i)))
    | .size n => totalSizeLoop fs base fuel (i + 1) (acc + n)

/-- What the reader of a chunk delivers to `io.Copy`: the content itself
without a key, the decryption of what follows the header with one. -/
def chunkReader {σ : Type} (env : Env σ) (key : Option (List Byte)) (part : String)
    (content : List Byte) : Except Err (List Byte) :=
  match key with
  | none => .ok content
  | some k =>
    match decryptReader env content k with
    | (.error e, _) => .error (.decrypting part e)
    | (.ok st, rest) => .ok (env.xorKeyStream st rest).1

/-- The second loop of `joinAndDecompress`, from index `i`: `out` is the
destination, open for writing. The loop ends with `nil` on the first chunk
`os.Stat` reports as not existing and returns the error of `os.Open`, of
`decryptReader`, of `in.Stat` and of `io.Copy`. `none`: the fuel ran out. -/
def joinLoop {σ : Type} (env : Env σ) (base : String) (key : Option (List Byte))
    (out : String) : Nat → Nat → JoinState → Option (JoinState × Outcome)
  | 0, _, _ => none
  | fuel + 1, i, s =>
    let part := chunkName base i
    if osStat s.fs part = .notExist then some (s, .ok)
    else
      match osOpen s.fs part with
      | .error e => some (s, .error e)
      | .ok content =>
        let s1 := { s with opened := s.opened ++ [part] }
        match chunkReader env key part content with
        | .error e => some (s1, .error e)
        | .ok data =>
          if s1.fs.fstatFails part then some (s1, .error (.fstat part))
          else
            match s1.fs.copyFails part with
            | some n =>
              some ({ s1 with fs := s1.fs.append out (data.take n) }, .error (.copy part))
            | none =>
              joinLoop env base key out fuel (i + 1)
                { s1 with fs := s1.fs.append out data,
                          written := s1.written + content.length }

/-- `joinAndDecompress(base, key)` with `fuel` iterations allowed to each
loop; `none`: the fuel ran out. -/
def joinAndDecompress {σ : Type} (env : Env σ) (fuel : Nat) (fs : FS) (base : String)
    (key : Option (List Byte)) : Option (JoinState × Outcome) :=
  let out := outFileName base
  if fs.denied out then
    some ({ fs := fs, totalSize := 0, written := 0, opened := [] }, .error (.denied out))
  else
    let fs1 := fs.create out
    match totalSizeLoop fs1 base fuel 0 0 with
    | none => none
    | some (.error e) =>
      some ({ fs := fs1, totalSize := 0, written := 0, opened := [] }, .error e)
    | some (.ok total) =>
      joinLoop env base key out fuel 0
        { fs := fs1, totalSize := total, written := 0, opened := [] }

/-- The flags of the command line after `flag.Parse()`. -/
structure Flags where
  /-- `-c`: the file to split. -/
  compressFile : String
  /-- `-d`: the base path of the chunks to join. -/
  decompressFile : String
  /-- `-e`: the key, in hexadecimal. -/
  encryptionKey : String
  /-- `-s`: the split size. -/
  splitSizeStr : String
  version : Bool

/-- How the process ends: `main` returns, `os.Exit(1)`, or a panic. -/
inductive Exit where
  | success
  | failure
  | crash
  deriving DecidableEq

/-- The value of an `int64` computation whose exact result is `x`. -/
def wrapInt64 (x : Int) : Int := (x + 2 ^ 63) % 2 ^ 64 - 2 ^ 63

/-- `parseSize(sizeStr)`; `parseInt` is `strconv.ParseInt(_, 10, 64)` with its
error dropped. -/
def parseSize (parseInt : String → Int) (sizeStr : String) : Int :=
  if sizeStr = "" then 0
  else if sizeStr.data.getLast? = some 'K' then
    wrapInt64 (parseInt (String.mk sizeStr.data.dropLast) * 1024)
  else if sizeStr.data.getLast? = some 'M' then
    wrapInt64 (parseInt (String.mk sizeStr.data.dropLast) * (1024 * 1024))
  else if sizeStr.data.getLast? = some 'G' then
    wrapInt64 (parseInt (String.mk sizeStr.data.dropLast) * (1024 * 1024 * 1024))
  else wrapInt64 (parseInt sizeStr * 1)

/-- `main` after the banner and `flag.Parse()`: `hexDecodeString` is
`hex.DecodeString` (`none` for its error), `input` the source handed to
`compressAndSplit`. Returns the file system left behind and how the process
ends; `none`: the fuel of the join ran out. -/
def main {σ : Type} (env : Env σ) (hexDecodeString : String → Option (List Byte))
    (parseInt : String → Int) (fuel : Nat) (fs : FS) (input : Except Err (List ReadRes))
    (flags : Flags) : Option (FS × Exit) :=
  if flags.version then some (fs, .success)
  else if flags.compressFile = "" ∧ flags.decompressFile = "" then some (fs, .failure)
  else
    let checked : Option (Option (List Byte)) :=
      if flags.encryptionKey ≠ "" then
        match hexDecodeString flags.encryptionKey with
        | none => none
        | some key =>
          if key.length ≠ 16 ∧ key.length ≠ 24 ∧ key.length ≠ 32 then none else some (some key)
      else some none
    match checked with
    | none => some (fs, .failure)
    | some key =>
      if flags.compressFile ≠ "" then
        match compressAndSplit env fs input flags.compressFile
            (parseSize parseInt flags.splitSizeStr) key with
        | (s, .ok) => some (s.fs, .success)
        | (s, .error _) => some (s.fs, .failure)
        | (s, .panic) => some (s.fs, .crash)
      else
        match joinAndDecompress env fuel fs flags.decompressFile key with
        | none => none
        | some (st, .ok) => some (st.fs, .success)
        | some (st, .error _) => some (st.fs, .failure)
        | some (st, .panic) => some (st.fs, .crash)

/-! ## Specification-level definitions -/

/-- What is assumed of the library primitives: digests are 32 bytes long,
`rand.Read` fills the 16-byte IV, a stream transforms byte for byte and
incrementally, and the CFB decrypter under `(key, iv)` undoes the CFB
encrypter under `(key, iv)`. -/
structure Env.Lawful {σ : Type} (env : Env σ) : Prop where
  sha_len : ∀ k, (env.sha256 k).length = 32
  rand_len : ∀ i, (env.rand i).length = aesBlockSize
  xor_len : ∀ s p, (env.xorKeyStream s p).1.length = p.length
  xor_nil : ∀ s, (env.xorKeyStream s []).2 = s
  xor_append : ∀ s a b, env.xorKeyStream s (a ++ b) =
    ((env.xorKeyStream s a).1 ++ (env.xorKeyStream (env.xorKeyStream s a).2 b).1,
     (env.xorKeyStream (env.xorKeyStream s a).2 b).2)
  dec_enc : ∀ k iv p, validKeyLen k → iv.length = aesBlockSize →
    (env.xorKeyStream (env.newCFBDecrypter k iv)
      (env.xorKeyStream (env.newCFBEncrypter k iv) p).1).1 = p

/-- No call of the join fails on the path `p`: not `os.Open`, not `os.Stat`
(other than by `os.ErrNotExist`), not `Stat` on the open file, not `io.Copy`. -/
def FS.healthy (fs : FS) (p : String) : Prop :=
  fs.denied p = false ∧ fs.statFails p = false ∧ fs.fstatFails p = false ∧
    fs.copyFails p = none

instance (fs : FS) (p : String) : Decidable (fs.healthy p) := by
  unfold FS.healthy; infer_instance

/-- The key, when there is one, has a length `aes.NewCipher` accepts. -/
def validKey (key : Option (List Byte)) : Prop :=
  ∀ k, key = some k → validKeyLen k

/-- The bytes the loop of `compressAndSplit` takes from a script of reads:
the data of every read up to and including the first one flagged `io.EOF`. -/
def delivered : List ReadRes → List Byte
  | [] => []
  | r :: rs => r.data ++ (if r.err = .eof then [] else delivered rs)

/-- The source as a byte sequence: the data of all the reads, in order. -/
def sourceBytes (reads : List ReadRes) : List Byte :=
  (reads.map (fun r => r.data)).flatten

/-- The layout of the `i`-th chunk file holding the plaintext `p`, in the
words of the specification: with a key, the IV, the 4-byte fingerprint of the
key, the ciphertext; without one, the plaintext. -/
def chunkLayout {σ : Type} (env : Env σ) (key : Option (List Byte)) (i : Nat)
    (p : List Byte) : List Byte :=
  match key with
  | none => p
  | some k =>
    env.rand i ++ ((checksum env k).take 4 ++
      (env.xorKeyStream (env.newCFBEncrypter k (env.rand i)) p).1)

/-- The plaintext of the `i`-th chunk in the words of the specification:
bytes `i*T .. (i+1)*T - 1` of the source. -/
def chunkPayload (T : Nat) (F : List Byte) (i : Nat) : List Byte :=
  (F.drop (i * T)).take T

/-- Number of chunks of a source of `len` bytes under the threshold `T > 0`:
`ceil(len / T)`. -/
def ceilDiv (len T : Nat) : Nat := (len + T - 1) / T

/-- The chunk arithmetic of one buffer on plaintexts alone: the chunks
closed so far and the plaintext of the open chunk; `none` is the panic. -/
def planBuffer (splitSize : Int) (data : List Byte) (p : List (List Byte) × List Byte) :
    Option (List (List Byte) × List Byte) :=
  if splitSize > 0 ∧ (p.2.length : Int) + (data.length : Int) > splitSize then
    if splitSize - (p.2.length : Int) < 0 then none
    else
      some (p.1 ++ [p.2 ++ data.take (splitSize - (p.2.length : Int)).toNat],
            data.drop (splitSize - (p.2.length : Int)).toNat)
  else some (p.1, p.2 ++ data)

/-- The chunk arithmetic of the loop on plaintexts alone; `Except.error` is
the plan reached when the loop panics. -/
def planLoop (splitSize : Int) : List ReadRes → List (List Byte) × List Byte →
    Except (List (List Byte) × List Byte) (List (List Byte) × List Byte)
  | [], p => .ok p
  | r :: rs, p =>
    match (if 0 < r.data.length then planBuffer splitSize r.data p else some p) with
    | none => .error p
    | some p1 => if r.err = .eof then .ok p1 else planLoop splitSize rs p1

/-- The chunk files of `file` on disk hold the plaintexts `chunks`, in
order and each in the chunk layout, and every other path is as in `fs0`. -/
structure ChunksOnDisk {σ : Type} (env : Env σ) (fs0 : FS) (file : String)
    (key : Option (List Byte)) (chunks : List (List Byte)) (fs : FS) : Prop where
  files : ∀ i p, chunks[i]? = some p →
    fs.files (chunkName file i) = some (chunkLayout env key i p)
  frame : ∀ q, (∀ i, i < chunks.length → q ≠ chunkName file i) → fs.files q = fs0.files q
  denied : fs.denied = fs0.denied
  faults : fs.statFails = fs0.statFails ∧ fs.fstatFails = fs0.fstatFails ∧
    fs.copyFails = fs0.copyFails

/-- The loop invariant of `compressAndSplit`: `done` are the plaintexts of
the closed chunks and `cur` the plaintext of the open one. -/
structure SplitInv {σ : Type} (env : Env σ) (fs0 : FS) (file : String)
    (key : Option (List Byte)) (done : List (List Byte)) (cur : List Byte)
    (s : SplitState σ) : Prop where
  part_eq : s.part = done.length + 1
  current_eq : s.current = some (chunkName file done.length)
  writer_eq : s.writer = some
    { file := chunkName file done.length,
      stream := key.map (fun k =>
        (env.xorKeyStream (env.newCFBEncrypter k (env.rand done.length)) cur).2) }
  nrand_eq : key ≠ none → s.nrand = done.length + 1
  disk : ChunksOnDisk env fs0 file key (done ++ [cur]) s.fs

/-- The loop invariant together with the counter: `written` is the length
of the plaintext of the open chunk. -/
def SplitRel {σ : Type} (env : Env σ) (fs0 : FS) (file : String)
    (key : Option (List Byte)) (p : List (List Byte) × List Byte) (s : SplitState σ) : Prop :=
  SplitInv env fs0 file key p.1 p.2 s ∧ s.written = p.2.length

/-- The shape of a plan under a threshold `T`: every closed chunk holds
exactly `T` bytes, the open one at most `T`, and the open one is empty only
as long as it is the first. -/
def PlanShape (T : Int) (p : List (List Byte) × List Byte) : Prop :=
  (∀ c ∈ p.1, (c.length : Int) = T) ∧ (p.2.length : Int) ≤ T ∧ (p.2 = [] → p.1 = [])

/-- Value of a big-endian string of decimal digits. -/
def decVal : List Char → Nat
  | [] => 0
  | c :: cs => (c.toNat - 48) * 10 ^ cs.length + decVal cs

/-- The state a loop ends in, normally or by a panic. -/
def endState {σ : Type} : Except (SplitState σ) (SplitState σ) → SplitState σ
  | .ok s => s
  | .error s => s

/-- The file `name0` still starts with the bytes `hdr`, at least one chunk
has been created, and the calls that fail are those of `fs0`. -/
def HeaderKept {σ : Type} (name0 : String) (hdr : List Byte) (fs0 : FS)
    (s : SplitState σ) : Prop :=
  1 ≤ s.part ∧ (∃ x, s.fs.files name0 = some (hdr ++ x)) ∧
    (s.fs.denied = fs0.denied ∧ s.fs.statFails = fs0.statFails)

/-! ## Concrete instances used to evaluate the model -/

/-- A toy instance of the primitives: the digest repeats the first key byte,
the `i`-th IV repeats the byte `i`, and the stream adds (encrypting) or
subtracts (decrypting) the sum of the first bytes of key and IV. -/
def toyEnv : Env (Byte × Bool) where
  sha256 k := List.replicate 32 (k.headD 0)
  rand i := List.replicate 16 (Fin.ofNat i)
  newCFBEncrypter k iv := (k.headD 0 + iv.headD 0, true)
  newCFBDecrypter k iv := (k.headD 0 + iv.headD 0, false)
  xorKeyStream s p := (p.map (fun b => if s.2 then b + s.1 else b - s.1), s)

/-- The empty file system, on which every `os.Create` succeeds. -/
def emptyFS : FS := { files := fun _ => none, denied := fun _ => false }

/-- The bytes `0, 1, .., n-1`. -/
def bytesUpTo (n : Nat) : List Byte := (List.range n).map (fun i => Fin.ofNat i)

/-- Four chunks of a five-chunk archive `a`: chunk 2 has been deleted. -/
def fiveChunksNoTwo : FS :=
  { files := fun p =>
      if p = "a.00" then some [1, 2]
      else if p = "a.01" then some [3]
      else if p = "a.03" then some [4]
      else if p = "a.04" then some [5]
      else none,
    denied := fun _ => false }

/-- A key of 16 bytes. -/
def key16 : List Byte := List.replicate 16 7

/-- Another key of 16 bytes, with another fingerprint under `toyEnv`. -/
def otherKey16 : List Byte := List.replicate 16 9

/-- A file system on which `os.Create` of the second chunk of `f` fails. -/
def noSecondChunkFS : FS :=
  { files := fun _ => none, denied := fun p => decide (p = "f.01") }

/-- A first read of a full buffer of zero bytes. -/
def fullRead : ReadRes := ⟨List.replicate 4096 0, .none⟩

/-- A second read of one byte. -/
def lastByteRead : ReadRes := ⟨[1], .none⟩

/-- A command line asking to split `f` with a key of 15 bytes given in
hexadecimal. -/
def splitFlags : Flags :=
  { compressFile := "f", decompressFile := "", encryptionKey := "070707070707070707070707070707",
    splitSizeStr := "", version := false }

/-- A file system in which `f` is a regular file, so that `os.Stat` of a
path under `f` fails with "not a directory". -/
def notDirFS : FS :=
  { files := fun _ => none, denied := fun _ => false,
    statFails := fun p => decide (p = "f/x.00") }

/-- A key of 15 bytes. -/
def key15 : List Byte := List.replicate 15 7

/-! ## Paths -/

theorem digitChar_val (m : Nat) (h : m < 10) : (Nat.digitChar m).toNat - 48 = m := by
  interval_cases m <;> rfl

theorem decVal_toDigitsCore (fuel : Nat) : ∀ (n : Nat) (ds : List Char), n < fuel →
    decVal (Nat.toDigitsCore 10 fuel n ds) = n * 10 ^ ds.length + decVal ds := by
  induction fuel with
  | zero => intro n ds h; omega
  | succ fuel ih =>
    intro n ds h
    simp only [Nat.toDigitsCore]
    split
    · rename_i h0
      have hn : n % 10 = n := by omega
      have hd := digitChar_val (n % 10) (Nat.mod_lt _ (by decide))
      rw [hn] at hd
      simp [decVal, hd, hn]
    · rename_i h0
      rw [ih (n / 10) _ (by omega)]
      simp only [decVal, List.length_cons, digitChar_val (n % 10) (Nat.mod_lt _ (by decide))]
      have : n = 10 * (n / 10) + n % 10 := (Nat.div_add_mod n 10).symm
      generalize n / 10 = q at *
      generalize n % 10 = r at *
      subst this
      ring

theorem decVal_repr (n : Nat) : decVal (toString n).data = n := by
  show decVal (Nat.repr n).data = n
  have h := decVal_toDigitsCore (n + 1) n [] (by omega)
  simpa [Nat.repr, Nat.toDigits, List.asString, decVal] using h

theorem decVal_fmt02d (n : Nat) : decVal (fmt02d n).data = n := by
  unfold fmt02d
  split
  · have h := decVal_repr n
    simp only [String.data_append, List.singleton_append, decVal] at h ⊢
    simpa using h
  · exact decVal_repr n

theorem chunkName_injective (file : String) {i j : Nat}
    (h : chunkName file i = chunkName file j) : i = j := by
  unfold chunkName at h
  have h1 := congrArg String.data h
  simp only [String.data_append, List.append_assoc, List.append_cancel_left_eq] at h1
  have h2 := congrArg decVal h1
  simpa [decVal_fmt02d] using h2

theorem count_dot_filepathBase (path : String) (h : path ≠ "") :
    (filepathBase path).data.count '.' ≤ path.data.count '.' := by
  unfold filepathBase
  rw [if_neg h]
  simp only
  split
  · simp
  · apply List.Sublist.count_le
    have h1 : (List.takeWhile (fun c => decide (c ≠ '/'))
        (List.dropWhile (fun c => decide (c = '/')) path.data.reverse)).Sublist path.data.reverse :=
      (List.takeWhile_sublist _).trans (List.dropWhile_sublist _)
    simpa using h1.reverse

theorem outFileName_ne_chunkName (base : String) (i : Nat) :
    outFileName base ≠ chunkName base i := by
  intro h
  have h1 := congrArg String.data h
  unfold outFileName chunkName at h1
  simp only [String.data_append] at h1
  by_cases hb : base = ""
  · subst hb
    simp [filepathBase] at h1
  · have h2 := congrArg (List.count '.') h1
    have h3 := count_dot_filepathBase base hb
    simp [List.count_append] at h2
    have : List.count '.' "joined_".data = 0 := by decide
    have : List.count '.' ".".data = 1 := by decide
    omega


/-! ## The file system -/

@[simp] theorem FS.create_files_same (fs : FS) (n : String) :
    (fs.create n).files n = some [] := by
  simp [FS.create]

theorem FS.create_files_ne (fs : FS) {n q : String} (h : q ≠ n) :
    (fs.create n).files q = fs.files q := by
  simp [FS.create, h]

@[simp] theorem FS.create_denied (fs : FS) (n : String) :
    (fs.create n).denied = fs.denied := rfl

theorem FS.append_files_same (fs : FS) (n : String) (d : List Byte) :
    (fs.append n d).files n = some ((fs.files n).getD [] ++ d) := by
  simp [FS.append]

theorem FS.append_files_ne (fs : FS) {n q : String} (d : List Byte) (h : q ≠ n) :
    (fs.append n d).files q = fs.files q := by
  simp [FS.append, h]

@[simp] theorem FS.append_denied (fs : FS) (n : String) (d : List Byte) :
    (fs.append n d).denied = fs.denied := rfl

theorem getElem?_snoc_iff {α : Type} (l : List α) (c p : α) (i : Nat) :
    (l ++ [c])[i]? = some p ↔ l[i]? = some p ∨ (i = l.length ∧ p = c) := by
  by_cases h : i < l.length
  · rw [List.getElem?_append_left h]
    constructor
    · intro h1; exact Or.inl h1
    · rintro (h1 | ⟨h1, -⟩)
      · exact h1
      · omega
  · rw [List.getElem?_append_right (by omega)]
    have hn : l[i]? = none := List.getElem?_eq_none (by omega)
    by_cases h2 : i = l.length
    · subst h2
      simp [hn, eq_comm]
    · have : i - l.length ≠ 0 := by omega
      obtain ⟨m, hm⟩ := Nat.exists_eq_succ_of_ne_zero this
      simp [hn, hm, h2]

theorem chunkName_ne_of_lt (file : String) {i j : Nat} (h : i < j) :
    chunkName file i ≠ chunkName file j := by
  intro e
  have := chunkName_injective file e
  omega

/-! ## The split loop keeps its invariant -/

section Split

variable {σ : Type} {env : Env σ} {fs0 : FS} {file : String} {key : Option (List Byte)}

theorem ChunksOnDisk.snoc_append (hl : key ≠ none → env.Lawful) {done : List (List Byte)}
    {cur : List Byte} {fs : FS} (h : ChunksOnDisk env fs0 file key (done ++ [cur]) fs)
    (d : List Byte) :
    ChunksOnDisk env fs0 file key (done ++ [cur ++ d])
      (fs.append (chunkName file done.length)
        (match key with
         | none => d
         | some k => (env.xorKeyStream
             (env.xorKeyStream (env.newCFBEncrypter k (env.rand done.length)) cur).2 d).1)) := by
  have hcur := h.files done.length cur ((getElem?_snoc_iff _ _ _ _).2 (Or.inr ⟨rfl, rfl⟩))
  refine ⟨?_, ?_, ?_, h.faults⟩
  · intro i p hp
    rcases (getElem?_snoc_iff _ _ _ _).1 hp with h1 | ⟨h1, h2⟩
    · have hi : i < done.length := by
        by_contra hc
        rw [List.getElem?_eq_none (by omega)] at h1
        exact absurd h1 (by simp)
      rw [FS.append_files_ne _ _ (chunkName_ne_of_lt file hi)]
      exact h.files i p ((getElem?_snoc_iff _ _ _ _).2 (Or.inl h1))
    · subst h1 h2
      rw [FS.append_files_same, hcur]
      cases key with
      | none => simp [chunkLayout]
      | some k =>
        simp only [chunkLayout, Option.getD_some, List.append_assoc]
        rw [(hl (by simp)).xor_append]
  · intro q hq
    have hq1 : q ≠ chunkName file done.length := hq done.length (by simp)
    rw [FS.append_files_ne _ _ hq1]
    exact h.frame q (by simpa using hq)
  · simpa using h.denied

theorem writerWrite_inv (hl : key ≠ none → env.Lawful) {done : List (List Byte)} {cur : List Byte}
    {s : SplitState σ} (h : SplitInv env fs0 file key done cur s) (d : List Byte) :
    ∃ s1, writerWrite env s d = some s1 ∧ SplitInv env fs0 file key done (cur ++ d) s1 ∧
      s1.written = s.written := by
  have hd := ChunksOnDisk.snoc_append hl h.disk d
  cases key with
  | none =>
    refine ⟨{ s with fs := s.fs.append (chunkName file done.length) d }, ?_, ?_, rfl⟩
    · simp [writerWrite, h.writer_eq, h.current_eq]
    · exact ⟨h.part_eq, h.current_eq, by simpa using h.writer_eq, by simp, hd⟩
  | some k =>
    refine ⟨{ s with
        fs := s.fs.append (chunkName file done.length)
          (env.xorKeyStream
            (env.xorKeyStream (env.newCFBEncrypter k (env.rand done.length)) cur).2 d).1,
        writer := some
          { file := chunkName file done.length,
            stream := some (env.xorKeyStream
              (env.xorKeyStream (env.newCFBEncrypter k (env.rand done.length)) cur).2 d).2 } },
      ?_, ?_, rfl⟩
    · simp [writerWrite, h.writer_eq, h.current_eq]
    · refine ⟨h.part_eq, h.current_eq, ?_, fun _ => h.nrand_eq (by simp), hd⟩
      simp [(hl (by simp)).xor_append]

theorem aesNewCipher_valid {k : List Byte} (h : validKeyLen k) : aesNewCipher k = .ok k := by
  simp [aesNewCipher, h]

theorem xor_nil_fst (HL : env.Lawful) (st : σ) : (env.xorKeyStream st []).1 = [] :=
  List.eq_nil_of_length_eq_zero (by simpa using HL.xor_len st [])

theorem ChunksOnDisk.snoc_create (hl : key ≠ none → env.Lawful) {chunks : List (List Byte)} {fs : FS}
    (h : ChunksOnDisk env fs0 file key chunks fs) :
    ChunksOnDisk env fs0 file key (chunks ++ [[]])
      (match key with
       | none => fs.create (chunkName file chunks.length)
       | some k =>
         ((fs.create (chunkName file chunks.length)).append (chunkName file chunks.length)
            (env.rand chunks.length)).append (chunkName file chunks.length)
              ((checksum env k).take 4)) := by
  refine ⟨?_, ?_, ?_, ?_⟩
  · intro i p hp
    rcases (getElem?_snoc_iff _ _ _ _).1 hp with h1 | ⟨h1, h2⟩
    · have hi : i < chunks.length := by
        by_contra hc
        rw [List.getElem?_eq_none (by omega)] at h1
        exact absurd h1 (by simp)
      have hne := chunkName_ne_of_lt file hi
      have := h.files i p h1
      cases key with
      | none => simpa [FS.create_files_ne _ hne] using this
      | some k =>
        simpa [FS.append_files_ne _ _ hne, FS.create_files_ne _ hne] using this
    · subst h1 h2
      cases key with
      | none => simp [chunkLayout]
      | some k =>
        simp [chunkLayout, FS.append_files_same, xor_nil_fst (hl (by simp))]
  · intro q hq
    have hq1 : q ≠ chunkName file chunks.length := hq chunks.length (by simp)
    have hq2 : fs.files q = fs0.files q :=
      h.frame q (fun i hi => hq i (by simp; omega))
    cases key with
    | none => simpa [FS.create_files_ne _ hq1] using hq2
    | some k => simpa [FS.append_files_ne _ _ hq1, FS.create_files_ne _ hq1] using hq2
  · cases key with
    | none => simpa using h.denied
    | some k => simpa using h.denied
  · cases key with
    | none => exact h.faults
    | some k => exact h.faults

theorem writeChunk_inv (hl : key ≠ none → env.Lawful) (hk : validKey key) {done : List (List Byte)}
    {cur : List Byte} {s : SplitState σ} (h : SplitInv env fs0 file key done cur s)
    (hden : fs0.denied (chunkName file (done.length + 1)) = false) :
    ∃ s1, writeChunk env file key s = (s1, none) ∧
      SplitInv env fs0 file key (done ++ [cur]) [] s1 ∧ s1.written = s.written := by
  have hd := ChunksOnDisk.snoc_create hl h.disk
  have hlen : (done ++ [cur]).length = done.length + 1 := by simp
  rw [hlen] at hd
  have hden1 : s.fs.denied (chunkName file (done.length + 1)) = false := by
    rw [h.disk.denied]; exact hden
  cases key with
  | none =>
    refine ⟨{ s with fs := s.fs.create (chunkName file (done.length + 1)),
                     current := some (chunkName file (done.length + 1)),
                     writer := some { file := chunkName file (done.length + 1), stream := none },
                     part := done.length + 1 + 1 }, ?_, ?_, rfl⟩
    · simp [writeChunk, h.part_eq, hden1]
    · exact ⟨by simp, by simp, by simp, by simp, by simpa using hd⟩
  | some k =>
    have hv := aesNewCipher_valid (hk k rfl)
    have hnr : s.nrand = done.length + 1 := h.nrand_eq (by simp)
    refine ⟨{ s with
        fs := ((s.fs.create (chunkName file (done.length + 1))).append
                (chunkName file (done.length + 1)) (env.rand (done.length + 1))).append
                (chunkName file (done.length + 1)) ((checksum env k).take 4),
        nrand := done.length + 1 + 1,
        current := some (chunkName file (done.length + 1)),
        writer := some { file := chunkName file (done.length + 1),
                         stream := some (env.newCFBEncrypter k (env.rand (done.length + 1))) },
        part := done.length + 1 + 1 }, ?_, ?_, rfl⟩
    · simp [writeChunk, h.part_eq, hden1, encryptWriter, hv, hnr]
    · refine ⟨by simp, by simp, ?_, ?_, ?_⟩
      · simp [(hl (by simp)).xor_nil]
      · intro _; simp
      · simpa using hd

theorem SplitInv.set_written {done : List (List Byte)} {cur : List Byte} {s : SplitState σ}
    (h : SplitInv env fs0 file key done cur s) (w : Int) :
    SplitInv env fs0 file key done cur { s with written := w } :=
  ⟨h.part_eq, h.current_eq, h.writer_eq, h.nrand_eq, h.disk⟩

theorem onBuffer_refines (hl : key ≠ none → env.Lawful) (hk : validKey key)
    (hden : ∀ i, fs0.denied (chunkName file i) = false) (T : Int) (data : List Byte)
    {p : List (List Byte) × List Byte} {s : SplitState σ}
    (h : SplitRel env fs0 file key p s) :
    match planBuffer T data p with
    | none => onBuffer env file T key data s = .error s
    | some p1 => ∃ s1, onBuffer env file T key data s = .ok s1 ∧
        SplitRel env fs0 file key p1 s1 := by
  obtain ⟨hi, hw⟩ := h
  unfold planBuffer onBuffer
  simp only [hw]
  by_cases hc : T > 0 ∧ (p.2.length : Int) + (data.length : Int) > T
  · rw [if_pos hc, if_pos hc]
    by_cases he : T - (p.2.length : Int) < 0
    · rw [if_pos he, if_pos he]
    · rw [if_neg he, if_neg he]
      obtain ⟨s1, h1, hi1, -⟩ := writerWrite_inv hl hi (data.take (T - (p.2.length : Int)).toNat)
      obtain ⟨s2, h2, hi2, -⟩ := writeChunk_inv hl hk hi1 (hden _)
      obtain ⟨s3, h3, hi3, -⟩ := writerWrite_inv hl hi2 (data.drop (T - (p.2.length : Int)).toNat)
      simp only [h1, h2, h3]
      refine ⟨_, rfl, ?_, ?_⟩
      · simpa using hi3.set_written _
      · simp only [List.length_drop]
        omega
  · rw [if_neg hc, if_neg hc]
    obtain ⟨s1, h1, hi1, -⟩ := writerWrite_inv hl hi data
    simp only [h1]
    refine ⟨_, rfl, hi1.set_written _, ?_⟩
    simp

theorem splitLoop_refines (hl : key ≠ none → env.Lawful) (hk : validKey key)
    (hden : ∀ i, fs0.denied (chunkName file i) = false) (T : Int) :
    ∀ (reads : List ReadRes) (p : List (List Byte) × List Byte) (s : SplitState σ),
      SplitRel env fs0 file key p s →
      match planLoop T reads p with
      | .ok p1 => ∃ s1, splitLoop env file T key reads s = .ok s1 ∧
          SplitRel env fs0 file key p1 s1
      | .error p1 => ∃ s1, splitLoop env file T key reads s = .error s1 ∧
          SplitRel env fs0 file key p1 s1 := by
  intro reads
  induction reads with
  | nil => intro p s h; exact ⟨s, rfl, h⟩
  | cons r rs ih =>
    intro p s h
    unfold planLoop splitLoop
    by_cases hn : 0 < r.data.length
    · simp only [hn, if_true]
      have hb := onBuffer_refines hl hk hden T r.data h
      cases hp : planBuffer T r.data p with
      | none =>
        rw [hp] at hb
        simp only [hb]
        exact ⟨s, rfl, h⟩
      | some p1 =>
        rw [hp] at hb
        obtain ⟨s1, h1, hr1⟩ := hb
        simp only [h1]
        by_cases he : r.err = .eof
        · simp only [he, if_true]
          exact ⟨s1, rfl, hr1⟩
        · simp only [he, if_false]
          exact ih p1 s1 hr1
    · simp only [hn, if_false]
      by_cases he : r.err = .eof
      · simp only [he, if_true]
        exact ⟨s, rfl, h⟩
      · simp only [he, if_false]
        exact ih p s h

theorem writeChunk_init (file : String) (hl : key ≠ none → env.Lawful) (hk : validKey key) (fs : FS)
    (hden : fs.denied (chunkName file 0) = false) :
    ∃ s0 : SplitState σ, writeChunk env file key (splitInit fs) = (s0, none) ∧
      SplitRel env fs file key ([], []) s0 := by
  have h0 : ChunksOnDisk env fs file key [] fs :=
    ⟨by intro i p hp; simp at hp, fun _ _ => rfl, rfl, rfl, rfl, rfl⟩
  have hd := ChunksOnDisk.snoc_create hl h0
  cases key with
  | none =>
    refine ⟨{ (splitInit fs : SplitState σ) with
        fs := fs.create (chunkName file 0), current := some (chunkName file 0),
        writer := some { file := chunkName file 0, stream := none }, part := 1 }, ?_, ?_, rfl⟩
    · simp [writeChunk, splitInit, hden]
    · exact ⟨rfl, rfl, rfl, by simp, by simpa using hd⟩
  | some k =>
    have hv := aesNewCipher_valid (hk k rfl)
    refine ⟨{ (splitInit fs : SplitState σ) with
        fs := ((fs.create (chunkName file 0)).append (chunkName file 0) (env.rand 0)).append
                (chunkName file 0) ((checksum env k).take 4),
        nrand := 1, current := some (chunkName file 0),
        writer := some { file := chunkName file 0,
                         stream := some (env.newCFBEncrypter k (env.rand 0)) },
        part := 1 }, ?_, ?_, rfl⟩
    · simp [writeChunk, splitInit, hden, encryptWriter, hv]
    · refine ⟨rfl, rfl, ?_, fun _ => rfl, by simpa using hd⟩
      simp [(hl (by simp)).xor_nil]

/-- The run of `compressAndSplit` follows the plan of chunk plaintexts: it
ends normally exactly when the plan does, it panics exactly when the plan
does, and the chunk files hold the plaintexts of the plan. -/
theorem compressAndSplit_refines (file : String) (hl : key ≠ none → env.Lawful) (hk : validKey key) (fs : FS)
    (hden : ∀ i, fs.denied (chunkName file i) = false) (T : Int) (reads : List ReadRes) :
    match planLoop T reads ([], []) with
    | .ok p1 => ∃ s1 : SplitState σ,
        compressAndSplit env fs (.ok reads) file T key = ({ s1 with current := none }, .ok) ∧
        SplitRel env fs file key p1 s1
    | .error p1 => ∃ s1 : SplitState σ,
        compressAndSplit env fs (.ok reads) file T key = (s1, .panic) ∧
        SplitRel env fs file key p1 s1 := by
  obtain ⟨s0, h0, hr0⟩ := writeChunk_init (σ := σ) file hl hk fs (hden 0)
  have hloop := splitLoop_refines hl hk hden T reads ([], []) s0 hr0
  unfold compressAndSplit
  simp only [h0]
  cases hp : planLoop T reads ([], []) with
  | ok p1 =>
    rw [hp] at hloop
    obtain ⟨s1, h1, hr1⟩ := hloop
    exact ⟨s1, by simp only [h1], hr1⟩
  | error p1 =>
    rw [hp] at hloop
    obtain ⟨s1, h1, hr1⟩ := hloop
    exact ⟨s1, by simp only [h1], hr1⟩

end Split

/-! ## The plan of chunk plaintexts -/

theorem planBuffer_join {T : Int} {data : List Byte} {p p1 : List (List Byte) × List Byte}
    (h : planBuffer T data p = some p1) :
    (p1.1 ++ [p1.2]).flatten = (p.1 ++ [p.2]).flatten ++ data := by
  unfold planBuffer at h
  split at h
  · split at h
    · exact absurd h (by simp)
    · simp only [Option.some.injEq] at h
      subst h
      simp [List.take_append_drop]
  · simp only [Option.some.injEq] at h
    subst h
    simp

theorem planLoop_join (T : Int) : ∀ (reads : List ReadRes) (p p1 : List (List Byte) × List Byte),
    planLoop T reads p = .ok p1 →
    (p1.1 ++ [p1.2]).flatten = (p.1 ++ [p.2]).flatten ++ delivered reads := by
  intro reads
  induction reads with
  | nil =>
    intro p p1 h
    simp only [planLoop, Except.ok.injEq] at h
    subst h
    simp [delivered]
  | cons r rs ih =>
    intro p p1 h
    unfold planLoop at h
    have hstep : ∀ q, (if 0 < r.data.length then planBuffer T r.data p else some p) = some q →
        (q.1 ++ [q.2]).flatten = (p.1 ++ [p.2]).flatten ++ r.data := by
      intro q hq
      by_cases hn : 0 < r.data.length
      · rw [if_pos hn] at hq
        exact planBuffer_join hq
      · rw [if_neg hn] at hq
        simp only [Option.some.injEq] at hq
        subst hq
        have : r.data = [] := List.eq_nil_of_length_eq_zero (by omega)
        simp [this]
    cases hq : (if 0 < r.data.length then planBuffer T r.data p else some p) with
    | none => rw [hq] at h; exact absurd h (by simp)
    | some q =>
      rw [hq] at h
      have hj := hstep q hq
      by_cases he : r.err = .eof
      · simp only [he, if_true, Except.ok.injEq] at h
        subst h
        simp [delivered, he, hj]
      · simp only [he, if_false] at h
        have := ih q p1 h
        simp [delivered, he, this, hj]

theorem planLoop_unbounded {T : Int} (hT : T ≤ 0) :
    ∀ (reads : List ReadRes) (p : List (List Byte) × List Byte),
    planLoop T reads p = .ok (p.1, p.2 ++ delivered reads) := by
  intro reads
  induction reads with
  | nil => intro p; simp [planLoop, delivered]
  | cons r rs ih =>
    intro p
    unfold planLoop
    have hb : planBuffer T r.data p = some (p.1, p.2 ++ r.data) := by
      unfold planBuffer
      rw [if_neg (by omega)]
    have hstep : (if 0 < r.data.length then planBuffer T r.data p else some p)
        = some (p.1, p.2 ++ r.data) := by
      by_cases hn : 0 < r.data.length
      · rw [if_pos hn, hb]
      · rw [if_neg hn]
        have : r.data = [] := List.eq_nil_of_length_eq_zero (by omega)
        simp [this]
    rw [hstep]
    by_cases he : r.err = .eof
    · simp [he, delivered]
    · simp [he, delivered, ih]

theorem planBuffer_shape {T : Int} {data : List Byte} {p : List (List Byte) × List Byte}
    (hT : 0 < T) (hn : (data.length : Int) ≤ T) (h : PlanShape T p) :
    ∃ p1, planBuffer T data p = some p1 ∧ PlanShape T p1 := by
  obtain ⟨h1, h2, h3⟩ := h
  unfold planBuffer
  by_cases hc : T > 0 ∧ (p.2.length : Int) + (data.length : Int) > T
  · rw [if_pos hc, if_neg (by omega)]
    refine ⟨_, rfl, ?_, ?_, ?_⟩
    · intro c hcm
      simp only [List.mem_append, List.mem_singleton] at hcm
      rcases hcm with hcm | hcm
      · exact h1 c hcm
      · subst hcm
        simp only [List.length_append, List.length_take]
        omega
    · simp only [List.length_drop]
      omega
    · intro h0
      have := congrArg List.length h0
      simp only [List.length_drop, List.length_nil] at this
      omega
  · rw [if_neg hc]
    refine ⟨_, rfl, h1, ?_, ?_⟩
    · simp only [List.length_append]
      push_cast
      omega
    · intro h0
      simp only [List.append_eq_nil] at h0
      exact h3 h0.1

theorem planLoop_shape {T : Int} (hT : 0 < T) :
    ∀ (reads : List ReadRes) (p : List (List Byte) × List Byte),
    (∀ r ∈ reads, (r.data.length : Int) ≤ T) → PlanShape T p →
    ∃ p1, planLoop T reads p = .ok p1 ∧ PlanShape T p1 := by
  intro reads
  induction reads with
  | nil => intro p _ h; exact ⟨p, rfl, h⟩
  | cons r rs ih =>
    intro p hr h
    have hr0 := hr r (List.mem_cons_self _ _)
    have hrs : ∀ x ∈ rs, (x.data.length : Int) ≤ T :=
      fun x hx => hr x (List.mem_cons_of_mem _ hx)
    have hstep : ∃ q, (if 0 < r.data.length then planBuffer T r.data p else some p) = some q ∧
        PlanShape T q := by
      by_cases hn : 0 < r.data.length
      · rw [if_pos hn]
        exact planBuffer_shape hT hr0 h
      · rw [if_neg hn]
        exact ⟨p, rfl, h⟩
    obtain ⟨q, hq, hsq⟩ := hstep
    unfold planLoop
    rw [hq]
    by_cases he : r.err = .eof
    · simp only [he, if_true]
      exact ⟨q, rfl, hsq⟩
    · simp only [he, if_false]
      exact ih q hrs hsq

/-! ## Chunks of exactly `T` bytes are the slices of the source -/

theorem chunkPayload_get (T : Nat) : ∀ (done : List (List Byte)) (cur : List Byte),
    (∀ c ∈ done, c.length = T) → cur.length ≤ T → ∀ i, i ≤ done.length →
    (done ++ [cur])[i]? = some (chunkPayload T (done ++ [cur]).flatten i) := by
  intro done
  induction done with
  | nil =>
    intro cur _ hc i hi
    have : i = 0 := by simpa using hi
    subst this
    simp [chunkPayload, List.take_of_length_le hc]
  | cons c d ih =>
    intro cur hd hc i hi
    have hcl : c.length = T := hd c (List.mem_cons_self _ _)
    have hd1 : ∀ x ∈ d, x.length = T := fun x hx => hd x (List.mem_cons_of_mem _ hx)
    cases i with
    | zero =>
      simp only [List.cons_append, List.flatten_cons, chunkPayload, Nat.zero_mul, List.drop_zero,
        List.getElem?_cons_zero, Option.some.injEq]
      rw [← hcl, List.take_left]
    | succ j =>
      have hj : j ≤ d.length := by simpa using hi
      have := ih cur hd1 hc j hj
      simp only [List.cons_append, List.flatten_cons, List.getElem?_cons_succ, this,
        Option.some.injEq, chunkPayload]
      have e : (j + 1) * T = c.length + j * T := by rw [hcl]; ring
      rw [e, List.drop_append]

theorem length_flatten_shape (T : Nat) : ∀ (done : List (List Byte)) (cur : List Byte),
    (∀ c ∈ done, c.length = T) →
    (done ++ [cur]).flatten.length = done.length * T + cur.length := by
  intro done
  induction done with
  | nil => intro cur _; simp
  | cons c d ih =>
    intro cur hd
    have hcl : c.length = T := hd c (List.mem_cons_self _ _)
    have hd1 : ∀ x ∈ d, x.length = T := fun x hx => hd x (List.mem_cons_of_mem _ hx)
    simp only [List.cons_append, List.flatten_cons, List.length_append, ih cur hd1, hcl,
      List.length_cons]
    ring

theorem ceilDiv_shape {T d c : Nat} (hT : 0 < T) (h1 : 1 ≤ c) (h2 : c ≤ T) :
    ceilDiv (d * T + c) T = d + 1 := by
  unfold ceilDiv
  apply Nat.div_eq_of_lt_le
  · have : (d + 1) * T = d * T + T := by ring
    omega
  · have : (d + 1 + 1) * T = d * T + T + T := by ring
    omega

/-! ## The join loop -/

section Join

variable {σ : Type} {env : Env σ}

theorem readFull_append (a b : List Byte) : readFull (a ++ b) a.length = (.ok a, b) := by
  simp [readFull]

theorem decryptReader_layout (hl : env.Lawful) {k : List Byte} (hv : validKeyLen k) (i : Nat)
    (p : List Byte) :
    decryptReader env (chunkLayout env (some k) i p) k =
      (.ok (env.newCFBDecrypter k (env.rand i)),
       (env.xorKeyStream (env.newCFBEncrypter k (env.rand i)) p).1) := by
  have h1 := readFull_append (env.rand i) ((checksum env k).take 4 ++
      (env.xorKeyStream (env.newCFBEncrypter k (env.rand i)) p).1)
  rw [hl.rand_len] at h1
  have h4 : ((checksum env k).take 4).length = 4 := by
    simp [checksum, hl.sha_len]
  have h2 := readFull_append ((checksum env k).take 4)
      (env.xorKeyStream (env.newCFBEncrypter k (env.rand i)) p).1
  rw [h4] at h2
  simp only [decryptReader, chunkLayout, aesNewCipher_valid hv, h1, h2]
  simp

theorem osStat_notExist {fs : FS} {p : String} (h1 : fs.statFails p = false)
    (h2 : fs.files p = none) : osStat fs p = .notExist := by
  simp [osStat, h1, h2]

theorem osStat_size {fs : FS} {p : String} {c : List Byte} (h1 : fs.statFails p = false)
    (h2 : fs.files p = some c) : osStat fs p = .size c.length := by
  simp [osStat, h1, h2]

theorem osOpen_ok {fs : FS} {p : String} {c : List Byte} (h1 : fs.denied p = false)
    (h2 : fs.files p = some c) : osOpen fs p = .ok c := by
  simp [osOpen, h1, h2]

/-- The size loop ends, with a total or with an error, as soon as `os.Stat`
does not find a chunk. -/
theorem totalSizeLoop_terminates (fs : FS) (base : String) {k : Nat}
    (hk : ∀ n, osStat fs (chunkName base k) ≠ .size n) :
    ∀ (fuel i : Nat) (acc : Int), i ≤ k → k - i < fuel →
      ∃ r, totalSizeLoop fs base fuel i acc = some r := by
  intro fuel
  induction fuel with
  | zero => intro i acc _ h; omega
  | succ fuel ih =>
    intro i acc hi hf
    unfold totalSizeLoop
    cases hc : osStat fs (chunkName base i) with
    | notExist => exact ⟨_, rfl⟩
    | failed => exact ⟨_, rfl⟩
    | size n =>
      have hik : i ≠ k := by
        intro e
        rw [e] at hc
        exact hk n hc
      exact ih (i + 1) _ (by omega) (by omega)

/-- The size loop ends with a total when `os.Stat` fails on no chunk up to
the first absent one. -/
theorem totalSizeLoop_ok (fs : FS) (base : String) {k : Nat}
    (hs : ∀ j, j ≤ k → fs.statFails (chunkName base j) = false)
    (hmiss : fs.files (chunkName base k) = none) :
    ∀ (fuel i : Nat) (acc : Int), i ≤ k → k - i < fuel →
      ∃ t, totalSizeLoop fs base fuel i acc = some (.ok t) := by
  intro fuel
  induction fuel with
  | zero => intro i acc _ h; omega
  | succ fuel ih =>
    intro i acc hi hf
    unfold totalSizeLoop
    cases hc : osStat fs (chunkName base i) with
    | notExist => exact ⟨_, rfl⟩
    | failed =>
      simp [osStat, hs i hi] at hc
      cases hfi : fs.files (chunkName base i) with
      | none => rw [hfi] at hc; simp at hc
      | some c => rw [hfi] at hc; simp at hc
    | size n =>
      have hik : i ≠ k := by
        intro e
        rw [e, osStat_notExist (hs k (le_refl _)) hmiss] at hc
        exact absurd hc (by simp)
      exact ih (i + 1) _ (by omega) (by omega)

theorem chunkReader_layout {key : Option (List Byte)} (hl : key ≠ none → env.Lawful)
    (hk : validKey key) (part : String) (i : Nat) (p : List Byte) :
    chunkReader env key part (chunkLayout env key i p) = .ok p := by
  cases key with
  | none => rfl
  | some kk =>
    have hv := hk kk rfl
    have hl1 := hl (by simp)
    simp only [chunkReader, decryptReader_layout hl1 hv]
    rw [hl1.dec_enc kk (env.rand i) p hv (hl1.rand_len i)]

theorem joinLoop_ok {key : Option (List Byte)} (hl : key ≠ none → env.Lawful) (hk : validKey key)
    (base out : String) (hout : ∀ j, out ≠ chunkName base j) (k : Nat) (ps : Nat → List Byte) :
    ∀ (fuel i : Nat) (s : JoinState) (o : List Byte), i ≤ k → k - i < fuel →
      s.fs.files out = some o →
      (∀ j, i ≤ j → j < k → s.fs.files (chunkName base j) = some (chunkLayout env key j (ps j))) →
      s.fs.files (chunkName base k) = none → s.fs.statFails (chunkName base k) = false →
      (∀ j, j < k → s.fs.healthy (chunkName base j)) →
      ∃ st, joinLoop env base key out fuel i s = some (st, .ok) ∧
        st.fs.files out = some (o ++ ((List.range' i (k - i)).map ps).flatten) ∧
        (∀ q, q ≠ out → st.fs.files q = s.fs.files q) ∧
        st.opened = s.opened ++ (List.range' i (k - i)).map (chunkName base) := by
  intro fuel
  induction fuel with
  | zero => intro i s o _ h; omega
  | succ fuel ih =>
    intro i s o hi hf ho hfiles hmiss hsk hden
    unfold joinLoop
    by_cases hik : i = k
    · subst hik
      simp only [osStat_notExist hsk hmiss, if_true]
      exact ⟨s, rfl, by simp [ho], fun _ _ => rfl, by simp⟩
    · have hlt : i < k := by omega
      have e : k - i = (k - (i + 1)) + 1 := by omega
      obtain ⟨hd1, hd2, hd3, hd4⟩ := hden i hlt
      have hfi := hfiles i (le_refl _) hlt
      have hne : ∀ j, chunkName base j ≠ out := fun j h => hout j h.symm
      simp only [osStat_size hd2 hfi, osOpen_ok hd1 hfi, chunkReader_layout hl hk, hd3, hd4,
        Bool.false_eq_true, if_false, reduceCtorEq]
      obtain ⟨st, h1, h2, h3, h4⟩ := ih (i + 1)
        { s with opened := s.opened ++ [chunkName base i],
                 fs := s.fs.append out (ps i),
                 written := s.written + ((chunkLayout env key i (ps i)).length : Int) }
        (o ++ ps i) (by omega) (by omega)
        (by show (s.fs.append out (ps i)).files out = _
            rw [FS.append_files_same, ho]; rfl)
        (fun j hj hjk => by
          show (s.fs.append out (ps i)).files (chunkName base j) = _
          rw [FS.append_files_ne _ _ (hne j)]; exact hfiles j (by omega) hjk)
        (by show (s.fs.append out (ps i)).files (chunkName base k) = _
            rw [FS.append_files_ne _ _ (hne k)]; exact hmiss)
        hsk (fun j hj => hden j hj)
      refine ⟨st, h1, ?_, ?_, ?_⟩
      · rw [h2, e, List.range'_succ]
        simp
      · intro q hq
        rw [h3 q hq]
        exact FS.append_files_ne _ _ hq
      · rw [h4, e, List.range'_succ]
        simp

/-- A join over a dense set of well-formed chunks: with chunks `0 .. k-1`
present in the chunk layout under `key`, chunk `k` absent, no call failing on
these paths, and enough fuel, `joinAndDecompress` returns `nil`, the
destination holds the plaintexts in index order, no other path changes, and
exactly the chunks `0 .. k-1` are opened, in order. -/
theorem joinAndDecompress_ok {key : Option (List Byte)} (hl : key ≠ none → env.Lawful) (hk : validKey key)
    (fs : FS) (base : String) (k : Nat) (ps : Nat → List Byte)
    (hout : fs.denied (outFileName base) = false)
    (hfiles : ∀ j, j < k → fs.files (chunkName base j) = some (chunkLayout env key j (ps j)))
    (hmiss : fs.files (chunkName base k) = none)
    (hsk : fs.statFails (chunkName base k) = false)
    (hden : ∀ j, j < k → fs.healthy (chunkName base j))
    (fuel : Nat) (hfuel : k < fuel) :
    ∃ st, joinAndDecompress env fuel fs base key = some (st, .ok) ∧
      st.fs.files (outFileName base) = some (((List.range k).map ps).flatten) ∧
      (∀ q, q ≠ outFileName base → st.fs.files q = fs.files q) ∧
      st.opened = (List.range k).map (chunkName base) := by
  have hne : ∀ j, chunkName base j ≠ outFileName base :=
    fun j h => outFileName_ne_chunkName base j h.symm
  have hmiss1 : (fs.create (outFileName base)).files (chunkName base k) = none := by
    rw [FS.create_files_ne _ (hne k)]; exact hmiss
  have hs1 : ∀ j, j ≤ k → (fs.create (outFileName base)).statFails (chunkName base j) = false := by
    intro j hj
    rcases Nat.lt_or_eq_of_le hj with h | h
    · exact (hden j h).2.1
    · rw [h]; exact hsk
  obtain ⟨t, ht⟩ := totalSizeLoop_ok (fs.create (outFileName base)) base hs1 hmiss1
    fuel 0 0 (Nat.zero_le _) (by omega)
  obtain ⟨st, h1, h2, h3, h4⟩ := joinLoop_ok hl hk base (outFileName base)
    (outFileName_ne_chunkName base) k ps fuel 0
    { fs := fs.create (outFileName base), totalSize := t, written := 0, opened := [] } []
    (Nat.zero_le _) (by omega) (by simp)
    (fun j _ hj => by
      show (fs.create (outFileName base)).files (chunkName base j) = _
      rw [FS.create_files_ne _ (hne j)]; exact hfiles j hj)
    hmiss1 hsk (fun j hj => hden j hj)
  refine ⟨st, ?_, ?_, ?_, ?_⟩
  · simp only [joinAndDecompress, hout, Bool.false_eq_true, if_false, ht, h1]
  · simpa [List.range_eq_range'] using h2
  · intro q hq
    rw [h3 q hq]
    exact FS.create_files_ne _ hq
  · simpa [List.range_eq_range'] using h4

end Join

/-! ## What a split leaves on disk -/

section SplitSpec

variable {σ : Type} {env : Env σ} {file : String} {key : Option (List Byte)}

theorem delivered_of_no_eof : ∀ (reads : List ReadRes), (∀ r ∈ reads, r.err ≠ .eof) →
    delivered reads = sourceBytes reads := by
  intro reads
  induction reads with
  | nil => intro _; rfl
  | cons r rs ih =>
    intro h
    have h0 := h r (List.mem_cons_self _ _)
    have := ih (fun x hx => h x (List.mem_cons_of_mem _ hx))
    simp [delivered, h0, this, sourceBytes]

/-- With a threshold of at least the buffer size the split ends normally, and
its chunks are all of exactly `T` bytes but the last. -/
theorem split_bounded (file : String) (hl : key ≠ none → env.Lawful) (hk : validKey key) (fs : FS)
    (hden : ∀ i, fs.denied (chunkName file i) = false) (T : Nat) (hT : bufSize ≤ T)
    (reads : List ReadRes) (hr : ∀ r ∈ reads, r.data.length ≤ bufSize) :
    ∃ (s1 : SplitState σ) (done : List (List Byte)) (cur : List Byte),
      compressAndSplit env fs (.ok reads) file T key = ({ s1 with current := none }, .ok) ∧
      SplitRel env fs file key (done, cur) s1 ∧
      (∀ c ∈ done, c.length = T) ∧ cur.length ≤ T ∧ (cur = [] → done = []) ∧
      (done ++ [cur]).flatten = delivered reads := by
  have hT0 : (0 : Int) < (T : Int) := by
    have : 0 < T := lt_of_lt_of_le (by decide) hT
    exact_mod_cast this
  have hr1 : ∀ r ∈ reads, (r.data.length : Int) ≤ (T : Int) := by
    intro r hm
    have := hr r hm
    exact_mod_cast le_trans this hT
  obtain ⟨p1, hp, hs1, hs2, hs3⟩ := planLoop_shape hT0 reads ([], []) hr1
    ⟨by simp, by simp, fun _ => rfl⟩
  have href := compressAndSplit_refines (σ := σ) file hl hk fs hden T reads
  rw [hp] at href
  obtain ⟨s1, h1, hrel⟩ := href
  refine ⟨s1, p1.1, p1.2, h1, hrel, ?_, ?_, hs3, ?_⟩
  · intro c hc
    exact_mod_cast hs1 c hc
  · exact_mod_cast hs2
  · simpa using planLoop_join T reads ([], []) p1 hp

/-- With no threshold the split ends normally with a single chunk. -/
theorem split_unbounded (file : String) (hl : key ≠ none → env.Lawful) (hk : validKey key) (fs : FS)
    (hden : ∀ i, fs.denied (chunkName file i) = false) (T : Int) (hT : T ≤ 0)
    (reads : List ReadRes) :
    ∃ (s1 : SplitState σ),
      compressAndSplit env fs (.ok reads) file T key = ({ s1 with current := none }, .ok) ∧
      SplitRel env fs file key ([], delivered reads) s1 := by
  have href := compressAndSplit_refines (σ := σ) file hl hk fs hden T reads
  rw [planLoop_unbounded hT] at href
  simpa using href

/-- The shape of the chunks of a bounded split in terms of the source `F`:
their number, and each chunk as a slice of `F`. -/
theorem shape_slices {T : Nat} (hT : 0 < T) {done : List (List Byte)} {cur F : List Byte}
    (h1 : ∀ c ∈ done, c.length = T) (h2 : cur.length ≤ T) (h3 : cur = [] → done = [])
    (hF : (done ++ [cur]).flatten = F) :
    done.length + 1 = (if F = [] then 1 else ceilDiv F.length T) ∧
    (∀ i, i ≤ done.length → (done ++ [cur])[i]? = some (chunkPayload T F i)) ∧
    (∀ i, i < done.length → (chunkPayload T F i).length = T) ∧
    chunkPayload T F done.length = cur ∧ (F ≠ [] → 1 ≤ cur.length) := by
  have hget := chunkPayload_get T done cur h1 h2
  rw [hF] at hget
  have hlen := length_flatten_shape T done cur h1
  rw [hF] at hlen
  have hcur : chunkPayload T F done.length = cur := by
    have := hget done.length (le_refl _)
    simpa using this.symm
  have hne : F ≠ [] → 1 ≤ cur.length := by
    intro hF0
    by_contra hc
    have hc0 : cur = [] := List.eq_nil_of_length_eq_zero (by omega)
    have hd0 := h3 hc0
    subst hc0 hd0
    simp at hF
    exact hF0 hF
  refine ⟨?_, hget, ?_, hcur, hne⟩
  · by_cases hF0 : F = []
    · rw [if_pos hF0]
      have hc0 : cur = [] := by
        have : cur.length = 0 := by
          rw [hF0] at hlen
          simp at hlen
          omega
        exact List.eq_nil_of_length_eq_zero this
      simp [h3 hc0]
    · rw [if_neg hF0, hlen, ceilDiv_shape hT (hne hF0) h2]
  · intro i hi
    have := hget i hi.le
    rw [List.getElem?_append_left hi] at this
    have hm : done[i] ∈ done := List.getElem_mem _
    rw [List.getElem?_eq_getElem hi] at this
    simp only [Option.some.injEq] at this
    rw [← this]
    exact h1 _ hm

end SplitSpec

/-! ## The toy primitives are lawful -/

theorem toyEnv_lawful : toyEnv.Lawful where
  sha_len := by intro k; simp [toyEnv]
  rand_len := by intro i; simp [toyEnv, aesBlockSize]
  xor_len := by intro s p; simp [toyEnv]
  xor_nil := by intro s; rfl
  xor_append := by intro s a b; simp [toyEnv]
  dec_enc := by
    intro k iv p _ _
    simp [toyEnv, Function.comp_def]

theorem validKey_none : validKey none := by
  intro k h; exact absurd h (by simp)

theorem validKey_some {k : List Byte} (h : validKeyLen k) : validKey (some k) := by
  intro k1 h1
  simp only [Option.some.injEq] at h1
  exact h1 ▸ h

theorem emptyFS_denied (file : String) : ∀ i, emptyFS.denied (chunkName file i) = false :=
  fun _ => rfl

/-! ## The loop over a script split in two -/

theorem splitLoop_append {σ : Type} (env : Env σ) (file : String) (T : Int)
    (key : Option (List Byte)) (post : List ReadRes) :
    ∀ (pre : List ReadRes) (s s1 : SplitState σ), (∀ r ∈ pre, r.err ≠ .eof) →
      splitLoop env file T key pre s = .ok s1 →
      splitLoop env file T key (pre ++ post) s = splitLoop env file T key post s1 := by
  intro pre
  induction pre with
  | nil =>
    intro s s1 _ h
    simp only [splitLoop, Except.ok.injEq] at h
    subst h
    rfl
  | cons r rs ih =>
    intro s s1 hne h
    have he : r.err ≠ .eof := hne r (List.mem_cons_self _ _)
    have hrs : ∀ x ∈ rs, x.err ≠ .eof := fun x hx => hne x (List.mem_cons_of_mem _ hx)
    simp only [List.cons_append]
    rw [splitLoop] at h
    conv_lhs => rw [splitLoop]
    cases hb : (if 0 < r.data.length then onBuffer env file T key r.data s else .ok s) with
    | error e => rw [hb] at h; exact absurd h (by simp)
    | ok s2 =>
      rw [hb] at h
      simp only [he, if_false] at h ⊢
      exact ih s2 s1 hrs h

/-! ## The 4097-byte source read as 4096 bytes and 1 byte -/

theorem fullRead_length : fullRead.data.length = 4096 :=
  List.length_replicate _ _

theorem full_last_reads_ok :
    ∀ r ∈ [fullRead, lastByteRead],
      r.err = .none ∧ 1 ≤ r.data.length ∧ r.data.length ≤ bufSize := by
  intro r hr
  simp only [List.mem_cons, List.mem_singleton, List.not_mem_nil, or_false] at hr
  rcases hr with rfl | rfl
  · refine ⟨rfl, ?_, ?_⟩
    · rw [fullRead_length]; decide
    · rw [fullRead_length]; decide
  · exact ⟨rfl, by decide, by decide⟩

theorem sourceBytes_full_last :
    sourceBytes [fullRead, lastByteRead] = List.replicate 4096 0 ++ [1] := rfl

theorem sourceBytes_full_last_length : (sourceBytes [fullRead, lastByteRead]).length = 4097 := by
  rw [sourceBytes_full_last, List.length_append, List.length_replicate]
  rfl

theorem sourceBytes_full_last_ne_nil : sourceBytes [fullRead, lastByteRead] ≠ [] := by
  intro h
  have := congrArg List.length h
  rw [sourceBytes_full_last_length] at this
  exact absurd this (by decide)

/-! ## Properties of the split -/

/-- C10. Split invariant when the threshold is at least the read-buffer
size: for every threshold `T ≥ 4096` and every sequence of reads of 1..4096
bytes each, after every prefix of the reads the per-chunk counter is between
0 and `T`, the split offset `T - written` of the next buffer, when the buffer
is split, satisfies `0 ≤ offset < n`; the run ends normally, every chunk but
the last holds exactly `T` plaintext bytes (the `i`-th chunk holds bytes
`i*T ..` of the source), and the last chunk holds between 1 and `T` bytes when
the source is not empty, so that there are `ceil(len(F)/T)` chunks and no
trailing empty one. -/
theorem split_invariant_of_threshold_ge_buffer {σ : Type} (env : Env σ) (file : String)
    (key : Option (List Byte)) (hl : key ≠ none → env.Lawful) (hk : validKey key) (fs : FS)
    (hden : ∀ i, fs.denied (chunkName file i) = false) (T : Nat) (hT : bufSize ≤ T)
    (reads : List ReadRes)
    (hr : ∀ r ∈ reads, r.err = .none ∧ 1 ≤ r.data.length ∧ r.data.length ≤ bufSize) :
    (∀ pre post, reads = pre ++ post →
      ∃ s : SplitState σ,
        splitLoop env file T key pre (writeChunk env file key (splitInit fs)).1 = .ok s ∧
        splitLoop env file T key reads (writeChunk env file key (splitInit fs)).1 =
          splitLoop env file T key post s ∧
        0 ≤ s.written ∧ s.written ≤ T ∧
        ∀ r rest, post = r :: rest → s.written + (r.data.length : Int) > T →
          0 ≤ (T : Int) - s.written ∧ (T : Int) - s.written < r.data.length) ∧
    (∃ s : SplitState σ,
      compressAndSplit env fs (.ok reads) file T key = (s, .ok) ∧
      s.part = (if sourceBytes reads = [] then 1 else ceilDiv (sourceBytes reads).length T) ∧
      (∀ i, i < s.part → s.fs.files (chunkName file i) =
        some (chunkLayout env key i (chunkPayload T (sourceBytes reads) i))) ∧
      (∀ i, i + 1 < s.part → (chunkPayload T (sourceBytes reads) i).length = T) ∧
      (sourceBytes reads ≠ [] →
        1 ≤ (chunkPayload T (sourceBytes reads) (s.part - 1)).length ∧
        (chunkPayload T (sourceBytes reads) (s.part - 1)).length ≤ T)) := by
  have hTpos : 0 < T := lt_of_lt_of_le (by decide) hT
  have hT0 : (0 : Int) < (T : Int) := by exact_mod_cast hTpos
  have hne : ∀ r ∈ reads, r.err ≠ .eof := fun r hm => by rw [(hr r hm).1]; decide
  have hsz : ∀ r ∈ reads, r.data.length ≤ bufSize := fun r hm => (hr r hm).2.2
  constructor
  · intro pre post hpp
    obtain ⟨s0, h0, hr0⟩ := writeChunk_init (σ := σ) file hl hk fs (hden 0)
    rw [h0]
    have hpre : ∀ r ∈ pre, (r.data.length : Int) ≤ (T : Int) := by
      intro r hm
      have := hsz r (by rw [hpp]; exact List.mem_append_left _ hm)
      exact_mod_cast le_trans this hT
    obtain ⟨p1, hp, -, hs2, -⟩ := planLoop_shape hT0 pre ([], []) hpre
      ⟨by simp, by simp, fun _ => rfl⟩
    have href := splitLoop_refines hl hk hden T pre ([], []) s0 hr0
    rw [hp] at href
    obtain ⟨s, hs, -, hw⟩ := href
    refine ⟨s, hs, ?_, ?_, ?_, ?_⟩
    · rw [hpp]
      exact splitLoop_append env file T key post pre s0 s
        (fun r hm => hne r (by rw [hpp]; exact List.mem_append_left _ hm)) hs
    · rw [hw]; exact Int.natCast_nonneg _
    · rw [hw]; exact hs2
    · intro r rest _ hgt
      rw [hw] at hgt ⊢
      constructor <;> omega
  · obtain ⟨s1, done, cur, h1, hrel, hd, hc, hcd, hfl⟩ :=
      split_bounded (σ := σ) file hl hk fs hden T hT reads hsz
    rw [delivered_of_no_eof reads hne] at hfl
    obtain ⟨e1, e2, e3, e4, e5⟩ := shape_slices hTpos hd hc hcd hfl
    have hpart : s1.part = done.length + 1 := hrel.1.part_eq
    refine ⟨_, h1, ?_, ?_, ?_, ?_⟩
    · show s1.part = _
      rw [hpart]; exact e1
    · intro i hi
      have hi1 : i ≤ done.length := by
        have : i < s1.part := hi
        omega
      exact hrel.1.disk.files i _ (e2 i hi1)
    · intro i hi
      have hi1 : i < done.length := by
        have : i + 1 < s1.part := hi
        omega
      exact e3 i hi1
    · intro hF
      have : ({ s1 with current := none } : SplitState σ).part - 1 = done.length := by
        show s1.part - 1 = _
        omega
      rw [this, e4]
      exact ⟨e5 hF, hc⟩

theorem chunks_eq_map_payload {T : Nat} {done : List (List Byte)} {cur F : List Byte}
    (h : ∀ i, i ≤ done.length → (done ++ [cur])[i]? = some (chunkPayload T F i)) :
    done ++ [cur] = (List.range (done.length + 1)).map (chunkPayload T F) := by
  apply List.ext_getElem?
  intro i
  by_cases hi : i ≤ done.length
  · rw [h i hi, List.getElem?_map, List.getElem?_range (by omega)]
    rfl
  · rw [List.getElem?_eq_none (by simp; omega), List.getElem?_eq_none (by simp; omega)]

/-- C2, as amended. Chunk count: for every source `F` delivered in reads of
at most 4096 bytes, none of which fails, and no key, when `os.Create`
succeeds on every chunk path, `compressAndSplit` with a threshold `T ≥ 4096`
(the size of the read buffer) ends normally and produces exactly
`ceil(len(F) / T)` chunk files when `F` is not empty and exactly one, empty,
chunk file when `F` is empty; the `i`-th holds bytes `i*T ..` of `F`, no
other path changes, and the payload lengths sum to `len(F)`. With `T = 0` it
produces exactly one chunk, holding `F`, whatever the length of `F`. -/
theorem chunk_count_of_threshold_ge_buffer {σ : Type} (env : Env σ) (file : String) (fs : FS)
    (hden : ∀ i, fs.denied (chunkName file i) = false) (reads : List ReadRes)
    (hr : ∀ r ∈ reads, r.err = .none ∧ r.data.length ≤ bufSize) :
    (∀ T : Nat, bufSize ≤ T →
      ∃ s : SplitState σ,
        compressAndSplit env fs (.ok reads) file T none = (s, .ok) ∧
        s.part = (if sourceBytes reads = [] then 1 else ceilDiv (sourceBytes reads).length T) ∧
        (∀ i, i < s.part →
          s.fs.files (chunkName file i) = some (chunkPayload T (sourceBytes reads) i)) ∧
        (∀ q, (∀ i, i < s.part → q ≠ chunkName file i) → s.fs.files q = fs.files q) ∧
        ((List.range s.part).map (fun i => (chunkPayload T (sourceBytes reads) i).length)).sum =
          (sourceBytes reads).length) ∧
    (∃ s : SplitState σ,
      compressAndSplit env fs (.ok reads) file 0 none = (s, .ok) ∧
      s.part = 1 ∧ s.fs.files (chunkName file 0) = some (sourceBytes reads) ∧
      (∀ q, q ≠ chunkName file 0 → s.fs.files q = fs.files q)) := by
  have hl : (none : Option (List Byte)) ≠ none → env.Lawful := fun h => absurd rfl h
  have hne : ∀ r ∈ reads, r.err ≠ .eof := fun r hm => by rw [(hr r hm).1]; decide
  have hsz : ∀ r ∈ reads, r.data.length ≤ bufSize := fun r hm => (hr r hm).2
  constructor
  · intro T hT
    have hTpos : 0 < T := lt_of_lt_of_le (by decide) hT
    obtain ⟨s1, done, cur, h1, hrel, hd, hc, hcd, hfl⟩ :=
      split_bounded (σ := σ) file hl validKey_none fs hden T hT reads hsz
    rw [delivered_of_no_eof reads hne] at hfl
    obtain ⟨e1, e2, -, -, -⟩ := shape_slices hTpos hd hc hcd hfl
    have hpart : s1.part = done.length + 1 := hrel.1.part_eq
    refine ⟨_, h1, ?_, ?_, ?_, ?_⟩
    · show s1.part = _
      rw [hpart]; exact e1
    · intro i hi
      have hi1 : i ≤ done.length := by
        have : i < s1.part := hi
        omega
      exact hrel.1.disk.files i _ (e2 i hi1)
    · intro q hq
      refine hrel.1.disk.frame q (fun i hi => hq i ?_)
      show i < s1.part
      rw [hpart]
      simpa using hi
    · show ((List.range s1.part).map _).sum = _
      have hm := chunks_eq_map_payload e2
      have hlen := congrArg List.length (congrArg List.flatten hm)
      rw [hfl, List.length_flatten, List.map_map] at hlen
      rw [hpart, hlen]
      rfl
  · obtain ⟨s1, h1, hrel⟩ :=
      split_unbounded (σ := σ) file hl validKey_none fs hden 0 (le_refl _) reads
    rw [delivered_of_no_eof reads hne] at hrel
    refine ⟨_, h1, hrel.1.part_eq, ?_, ?_⟩
    · exact hrel.1.disk.files 0 (sourceBytes reads) (by simp)
    · intro q hq
      refine hrel.1.disk.frame q (fun i hi => ?_)
      have : i = 0 := by simpa using hi
      rw [this]; exact hq

/-- C2 fails as stated. An empty source under `T = 10` leaves one chunk
file, where `ceil(0 / 10) = 0`; a 25-byte source delivered by one read under
`T = 10` leaves two chunks, of 10 and 15 bytes, where the claim has three, of
10, 10 and 5 bytes. -/
theorem chunk_count_counterexample :
    (compressAndSplit toyEnv emptyFS (.ok []) "f" 10 none).1.part = 1 ∧
    ceilDiv (sourceBytes []).length 10 = 0 ∧
    (compressAndSplit toyEnv emptyFS (.ok [⟨bytesUpTo 25, .none⟩]) "f" 10 none).1.part = 2 ∧
    ceilDiv (sourceBytes [⟨bytesUpTo 25, .none⟩]).length 10 = 3 ∧
    ((compressAndSplit toyEnv emptyFS (.ok [⟨bytesUpTo 25, .none⟩]) "f" 10 none).1.fs.files
      "f.00").map List.length = some 10 ∧
    ((compressAndSplit toyEnv emptyFS (.ok [⟨bytesUpTo 25, .none⟩]) "f" 10 none).1.fs.files
      "f.01").map List.length = some 15 ∧
    (compressAndSplit toyEnv emptyFS (.ok [⟨bytesUpTo 25, .none⟩]) "f" 10 none).1.fs.files
      "f.02" = none := by
  decide

/-- The amended C2 at a 4097-byte source read as 4096 bytes and 1 byte: the
second buffer is split, and there are `ceil(4097 / 4096) = 2` chunk files
under the threshold 4096, whose payload lengths sum to 4097, and one chunk
file under no threshold. -/
theorem chunk_count_witness :
    (∀ i, emptyFS.denied (chunkName "f" i) = false) ∧
    (∀ r ∈ [fullRead, lastByteRead], r.err = .none ∧ r.data.length ≤ bufSize) ∧
    (∃ s : SplitState (Byte × Bool),
      compressAndSplit toyEnv emptyFS (.ok [fullRead, lastByteRead]) "f" (4096 : Nat) none
        = (s, .ok) ∧
      s.part = 2 ∧
      s.fs.files (chunkName "f" 0) =
        some (chunkPayload 4096 (sourceBytes [fullRead, lastByteRead]) 0) ∧
      s.fs.files (chunkName "f" 1) =
        some (chunkPayload 4096 (sourceBytes [fullRead, lastByteRead]) 1) ∧
      ((List.range 2).map
        (fun i => (chunkPayload 4096 (sourceBytes [fullRead, lastByteRead]) i).length)).sum
        = 4097) ∧
    (∃ s : SplitState (Byte × Bool),
      compressAndSplit toyEnv emptyFS (.ok [fullRead, lastByteRead]) "f" 0 none = (s, .ok) ∧
      s.part = 1) := by
  have hr : ∀ r ∈ [fullRead, lastByteRead], r.err = .none ∧ r.data.length ≤ bufSize :=
    fun r hm => ⟨(full_last_reads_ok r hm).1, (full_last_reads_ok r hm).2.2⟩
  have h := chunk_count_of_threshold_ge_buffer toyEnv "f" emptyFS (emptyFS_denied "f")
    [fullRead, lastByteRead] hr
  refine ⟨emptyFS_denied "f", hr, ?_, ?_⟩
  · obtain ⟨s, h1, h2, h3, -, h5⟩ := h.1 4096 (by decide)
    have hp : s.part = 2 := by
      rw [h2, if_neg sourceBytes_full_last_ne_nil, sourceBytes_full_last_length]
      decide
    refine ⟨s, h1, hp, h3 0 (by omega), h3 1 (by omega), ?_⟩
    rw [hp, sourceBytes_full_last_length] at h5
    exact h5
  · obtain ⟨s, h1, h2, -⟩ := h.2
    exact ⟨s, h1, h2⟩

/-- The split invariant C10 at a 4097-byte source read as 4096 bytes and
1 byte, threshold 4096, with a 16-byte key: after the first buffer the
counter is within `0 .. 4096` and the offset at which the second buffer is
split is within range; the run ends normally with two chunks, the first of
exactly 4096 plaintext bytes, the last of at least one. -/
theorem split_invariant_witness :
    validKey (some key16) ∧ (∀ i, emptyFS.denied (chunkName "f" i) = false) ∧
    bufSize ≤ 4096 ∧
    (∀ r ∈ [fullRead, lastByteRead],
      r.err = .none ∧ 1 ≤ r.data.length ∧ r.data.length ≤ bufSize) ∧
    (∃ s : SplitState (Byte × Bool),
      splitLoop toyEnv "f" (4096 : Nat) (some key16) [fullRead]
        (writeChunk toyEnv "f" (some key16) (splitInit emptyFS)).1 = .ok s ∧
      0 ≤ s.written ∧ s.written ≤ (4096 : Nat) ∧
      (s.written + (lastByteRead.data.length : Int) > (4096 : Nat) →
        0 ≤ ((4096 : Nat) : Int) - s.written ∧
        ((4096 : Nat) : Int) - s.written < lastByteRead.data.length)) ∧
    (∃ s : SplitState (Byte × Bool),
      compressAndSplit toyEnv emptyFS (.ok [fullRead, lastByteRead]) "f" (4096 : Nat)
        (some key16) = (s, .ok) ∧
      s.part = 2 ∧
      (chunkPayload 4096 (sourceBytes [fullRead, lastByteRead]) 0).length = 4096 ∧
      1 ≤ (chunkPayload 4096 (sourceBytes [fullRead, lastByteRead]) 1).length) := by
  have hk : validKey (some key16) := validKey_some (by decide)
  have h := split_invariant_of_threshold_ge_buffer toyEnv "f" (some key16)
    (fun _ => toyEnv_lawful) hk emptyFS (emptyFS_denied "f") 4096 (by decide)
    [fullRead, lastByteRead] full_last_reads_ok
  refine ⟨hk, emptyFS_denied "f", by decide, full_last_reads_ok, ?_, ?_⟩
  · obtain ⟨s, h1, -, h3, h4, h5⟩ := h.1 [fullRead] [lastByteRead] rfl
    exact ⟨s, h1, h3, h4, h5 lastByteRead [] rfl⟩
  · obtain ⟨s, h1, h2, -, h4, h5⟩ := h.2
    have hp : s.part = 2 := by
      rw [h2, if_neg sourceBytes_full_last_ne_nil, sourceBytes_full_last_length]
      decide
    refine ⟨s, h1, hp, h4 0 (by omega), ?_⟩
    have := (h5 sourceBytes_full_last_ne_nil).1
    rw [hp] at this
    exact this

/-! ## Properties of the join -/

/-- C5. Missing chunk on join: when the chunks `0 .. k-1` of `base` are
present (holding `cs 0 .. cs (k-1)`), chunk `k` is the first absent one
(`os.Stat` reports it as not existing), and no call fails on the chunks
present or on the creation of the destination, `joinAndDecompress` without a
key, given fuel for `k + 1` iterations, returns no error; the destination
holds exactly the concatenation of the chunks `0 .. k-1` in index order, no
other path changes, and the files opened are exactly the chunks `0 .. k-1`:
no chunk of a higher index is read. -/
theorem join_stops_at_first_missing_chunk {σ : Type} (env : Env σ) (fs : FS) (base : String)
    (k : Nat) (cs : Nat → List Byte)
    (hout : fs.denied (outFileName base) = false)
    (hfiles : ∀ j, j < k → fs.files (chunkName base j) = some (cs j))
    (hmiss : osStat fs (chunkName base k) = .notExist)
    (hden : ∀ j, j < k → fs.healthy (chunkName base j))
    (fuel : Nat) (hfuel : k < fuel) :
    ∃ st, joinAndDecompress env fuel fs base none = some (st, .ok) ∧
      st.fs.files (outFileName base) = some (((List.range k).map cs).flatten) ∧
      (∀ q, q ≠ outFileName base → st.fs.files q = fs.files q) ∧
      st.opened = (List.range k).map (chunkName base) := by
  have hs : fs.statFails (chunkName base k) = false := by
    cases h : fs.statFails (chunkName base k) with
    | false => rfl
    | true => simp [osStat, h] at hmiss
  have hm : fs.files (chunkName base k) = none := by
    cases h : fs.files (chunkName base k) with
    | none => rfl
    | some c => simp [osStat, hs, h] at hmiss
  exact joinAndDecompress_ok (fun h => absurd rfl h) validKey_none fs base k cs hout hfiles hm
    hs hden fuel hfuel

/-- C5 at a five-chunk set with chunk 2 deleted: the join returns no error,
yields chunks 0 and 1 only, and opens no other chunk. -/
theorem join_stops_at_first_missing_chunk_witness :
    osStat fiveChunksNoTwo (chunkName "a" 2) = .notExist ∧
    fiveChunksNoTwo.files (chunkName "a" 3) = some [4] ∧
    ∃ st, joinAndDecompress toyEnv 3 fiveChunksNoTwo "a" none = some (st, .ok) ∧
      st.fs.files "joined_a" = some [1, 2, 3] ∧ st.opened = ["a.00", "a.01"] := by
  obtain ⟨st, h1, h2, -, h4⟩ := join_stops_at_first_missing_chunk toyEnv fiveChunksNoTwo "a" 2
    (fun j => if j = 0 then [1, 2] else [3]) rfl (by decide) (by decide)
    (fun _ _ => ⟨rfl, rfl, rfl, rfl⟩) 3 (by decide)
  refine ⟨by decide, by decide, st, h1, ?_, ?_⟩
  · have e : outFileName "a" = "joined_a" := by decide
    rw [e] at h2
    rw [h2]
    decide
  · rw [h4]
    decide

/-- The error of `os.Stat` other than `os.ErrNotExist` is returned: for the
base `f/x` under a regular file `f` the join returns the error of
`os.Stat("f/x.00")`, having created the destination `joined_x` empty. -/
theorem join_returns_stat_error :
    (joinAndDecompress toyEnv 1 notDirFS "f/x" none).map (fun r => r.2) =
      some (.error (.stat "f/x.00")) ∧
    (joinAndDecompress toyEnv 1 notDirFS "f/x" none).map (fun r => r.1.fs.files "joined_x") =
      some (some []) := by
  decide

/-! ## The layout of the chunk files -/

/-- Whatever the threshold and the reads, when every chunk file can be
created the split ends normally or by a panic, and its chunk files hold a
list of plaintexts, one each, in the chunk layout; after a normal end the
plaintexts make up the bytes delivered. -/
theorem split_chunks {σ : Type} (env : Env σ) (key : Option (List Byte))
    (hl : key ≠ none → env.Lawful) (hk : validKey key) (file : String) (fs : FS)
    (hden : ∀ i, fs.denied (chunkName file i) = false) (T : Int) (reads : List ReadRes) :
    ∃ (s : SplitState σ) (o : Outcome) (chunks : List (List Byte)),
      compressAndSplit env fs (.ok reads) file T key = (s, o) ∧
      (o = .ok ∨ o = .panic) ∧ chunks.length = s.part ∧
      (o = .ok → chunks.flatten = delivered reads) ∧
      ChunksOnDisk env fs file key chunks s.fs := by
  have href := compressAndSplit_refines (σ := σ) file hl hk fs hden T reads
  cases hp : planLoop T reads ([], []) with
  | ok p1 =>
    rw [hp] at href
    obtain ⟨s1, h1, hrel⟩ := href
    refine ⟨_, _, p1.1 ++ [p1.2], h1, Or.inl rfl, ?_, ?_, hrel.1.disk⟩
    · show _ = s1.part
      rw [hrel.1.part_eq]; simp
    · intro _
      simpa using planLoop_join T reads ([], []) p1 hp
  | error p1 =>
    rw [hp] at href
    obtain ⟨s1, h1, hrel⟩ := href
    refine ⟨_, _, p1.1 ++ [p1.2], h1, Or.inr rfl, ?_, ?_, hrel.1.disk⟩
    · rw [hrel.1.part_eq]; simp
    · intro h; exact absurd h (by simp)

/-- C8. Chunk byte layout: for every valid key `K`, every threshold and
every source, each chunk file written by `compressAndSplit` with `K` consists
of the 16-byte IV drawn for it, then the first 4 bytes of SHA-256(`K`), then
the ciphertext of the chunk plaintext under `(K, IV)`, which is as long as
the plaintext, so that the file is 20 bytes longer than its plaintext; with
no key each chunk file is exactly its plaintext. The plaintexts are, chunk
after chunk, the bytes delivered by the source. -/
theorem chunk_file_layout {σ : Type} (env : Env σ) (file : String) (fs : FS)
    (hden : ∀ i, fs.denied (chunkName file i) = false) (T : Int) (reads : List ReadRes) :
    (env.Lawful → ∀ K, validKeyLen K →
      ∃ (s : SplitState σ) (o : Outcome) (chunks : List (List Byte)),
        compressAndSplit env fs (.ok reads) file T (some K) = (s, o) ∧
        (o = .ok ∨ o = .panic) ∧ chunks.length = s.part ∧
        (o = .ok → chunks.flatten = delivered reads) ∧
        ∀ i p, chunks[i]? = some p →
          ∃ iv tag c, s.fs.files (chunkName file i) = some (iv ++ (tag ++ c)) ∧
            iv = env.rand i ∧ iv.length = 16 ∧
            tag = (checksum env K).take 4 ∧ tag.length = 4 ∧
            c = (env.xorKeyStream (env.newCFBEncrypter K iv) p).1 ∧ c.length = p.length ∧
            (iv ++ (tag ++ c)).length = p.length + 20) ∧
    (∃ (s : SplitState σ) (o : Outcome) (chunks : List (List Byte)),
        compressAndSplit env fs (.ok reads) file T none = (s, o) ∧
        (o = .ok ∨ o = .panic) ∧ chunks.length = s.part ∧
        (o = .ok → chunks.flatten = delivered reads) ∧
        ∀ i p, chunks[i]? = some p → s.fs.files (chunkName file i) = some p) := by
  constructor
  · intro hl K hK
    obtain ⟨s, o, chunks, h1, h2, h3, h4, hd⟩ :=
      split_chunks (σ := σ) env (some K) (fun _ => hl) (validKey_some hK)
        file fs hden T reads
    refine ⟨s, o, chunks, h1, h2, h3, h4, ?_⟩
    intro i p hp
    have hiv : (env.rand i).length = 16 := hl.rand_len i
    have htag : ((checksum env K).take 4).length = 4 := by simp [checksum, hl.sha_len]
    have hc := hl.xor_len (env.newCFBEncrypter K (env.rand i)) p
    refine ⟨env.rand i, (checksum env K).take 4, _, hd.files i p hp, rfl, hiv, rfl, htag, rfl,
      hc, ?_⟩
    simp only [List.length_append, hiv, htag, hc]
    omega
  · obtain ⟨s, o, chunks, h1, h2, h3, h4, hd⟩ :=
      split_chunks (σ := σ) env none (fun h => absurd rfl h) validKey_none
        file fs hden T reads
    exact ⟨s, o, chunks, h1, h2, h3, h4, fun i p hp => hd.files i p hp⟩

/-- C8 at a 3-byte source split with a 16-byte key under no threshold. -/
theorem chunk_file_layout_witness :
    (∀ i, emptyFS.denied (chunkName "f" i) = false) ∧ validKeyLen key16 ∧
    ∃ (s : SplitState (Byte × Bool)) (o : Outcome) (chunks : List (List Byte)),
      compressAndSplit toyEnv emptyFS (.ok [⟨[1, 2, 3], .none⟩]) "f" 0 (some key16) = (s, o) ∧
      (o = .ok ∨ o = .panic) ∧ chunks.length = s.part :=
  ⟨emptyFS_denied "f", by decide,
    by
      obtain ⟨s, o, chunks, h1, h2, h3, -⟩ :=
        (chunk_file_layout toyEnv "f" emptyFS (emptyFS_denied "f") 0 [⟨[1, 2, 3], .none⟩]).1
          toyEnv_lawful key16 (by decide)
      exact ⟨s, o, chunks, h1, h2, h3⟩⟩

/-! ## The header of the first chunk survives the whole split -/

section Header

variable {σ : Type} {env : Env σ} {name0 : String} {hdr : List Byte} {fs0 : FS}

theorem append_keeps_header (fs : FS) (n : String) (d : List Byte)
    (h : ∃ x, fs.files name0 = some (hdr ++ x)) :
    ∃ x, (fs.append n d).files name0 = some (hdr ++ x) := by
  obtain ⟨x, hx⟩ := h
  by_cases e : name0 = n
  · subst e
    exact ⟨x ++ d, by rw [FS.append_files_same, hx]; simp⟩
  · exact ⟨x, by rw [FS.append_files_ne _ _ e]; exact hx⟩

theorem writerWrite_keeps_header {s s1 : SplitState σ} {p : List Byte}
    (h : HeaderKept name0 hdr fs0 s) (hw : writerWrite env s p = some s1) :
    HeaderKept name0 hdr fs0 s1 := by
  obtain ⟨h1, h2, h3⟩ := h
  unfold writerWrite at hw
  cases hwr : s.writer with
  | none => rw [hwr] at hw; exact absurd hw (by simp)
  | some w =>
    rw [hwr] at hw
    simp only at hw
    cases hst : w.stream with
    | none =>
      rw [hst] at hw
      simp only [Option.some.injEq] at hw
      subst hw
      split
      · exact ⟨h1, append_keeps_header _ _ _ h2, h3⟩
      · exact ⟨h1, h2, h3⟩
    | some st =>
      rw [hst] at hw
      simp only [Option.some.injEq] at hw
      subst hw
      split
      · exact ⟨h1, append_keeps_header _ _ _ h2, h3⟩
      · exact ⟨h1, h2, h3⟩

theorem writeChunk_keeps_header (env : Env σ) (file : String) (key : Option (List Byte)) {s : SplitState σ}
    (h : HeaderKept (chunkName file 0) hdr fs0 s) :
    HeaderKept (chunkName file 0) hdr fs0 (writeChunk env file key s).1 := by
  obtain ⟨h1, h2, h3⟩ := h
  have hne : chunkName file 0 ≠ chunkName file s.part := chunkName_ne_of_lt file (by omega)
  have hc : ∃ x, (s.fs.create (chunkName file s.part)).files (chunkName file 0) =
      some (hdr ++ x) := by
    obtain ⟨x, hx⟩ := h2
    exact ⟨x, by rw [FS.create_files_ne _ hne]; exact hx⟩
  unfold writeChunk
  simp only
  split
  · exact ⟨h1, h2, h3⟩
  · cases key with
    | none => exact ⟨by simp, hc, h3⟩
    | some k =>
      simp only [encryptWriter]
      cases aesNewCipher k with
      | error e => exact ⟨by simp, hc, h3⟩
      | ok b =>
        exact ⟨by simp, append_keeps_header _ _ _ (append_keeps_header _ _ _ hc), h3⟩

theorem onBuffer_keeps_header (file : String) (T : Int) (key : Option (List Byte))
    (data : List Byte) {s : SplitState σ} (h : HeaderKept (chunkName file 0) hdr fs0 s) :
    HeaderKept (chunkName file 0) hdr fs0 (endState (onBuffer env file T key data s)) := by
  unfold onBuffer
  simp only
  split
  · split
    · exact h
    · cases h1 : writerWrite env s (data.take (T - s.written).toNat) with
      | none => exact h
      | some s1 =>
        have hk1 := writerWrite_keeps_header h h1
        have hk2 := writeChunk_keeps_header env file key hk1
        simp only
        cases h3 : writerWrite env (writeChunk env file key s1).1
            (data.drop (T - s.written).toNat) with
        | none => exact hk2
        | some s3 =>
          have hk3 := writerWrite_keeps_header hk2 h3
          exact ⟨hk3.1, hk3.2.1, hk3.2.2⟩
  · cases h1 : writerWrite env s data with
    | none => exact h
    | some s1 =>
      have hk1 := writerWrite_keeps_header h h1
      exact ⟨hk1.1, hk1.2.1, hk1.2.2⟩

theorem splitLoop_keeps_header (env : Env σ) (file : String) (T : Int) (key : Option (List Byte)) :
    ∀ (reads : List ReadRes) (s : SplitState σ), HeaderKept (chunkName file 0) hdr fs0 s →
      HeaderKept (chunkName file 0) hdr fs0 (endState (splitLoop env file T key reads s)) := by
  intro reads
  induction reads with
  | nil => intro s h; exact h
  | cons r rs ih =>
    intro s h
    have hb : HeaderKept (chunkName file 0) hdr fs0
        (endState (if 0 < r.data.length then onBuffer env file T key r.data s else .ok s)) := by
      split
      · exact onBuffer_keeps_header file T key r.data h
      · exact h
    unfold splitLoop
    cases hq : (if 0 < r.data.length then onBuffer env file T key r.data s else .ok s) with
    | error s1 => rw [hq] at hb; exact hb
    | ok s1 =>
      rw [hq] at hb
      simp only
      split
      · exact hb
      · exact ih s1 hb

/-- After `compressAndSplit` with a valid key, however it ends, the first
chunk file starts with the first IV and the fingerprint of the key. -/
theorem compressAndSplit_keeps_header (env : Env σ) (fs : FS) (file : String) (T : Int)
    (reads : List ReadRes) {K : List Byte} (hK : validKeyLen K)
    (hden : fs.denied (chunkName file 0) = false) :
    HeaderKept (chunkName file 0) (env.rand 0 ++ (checksum env K).take 4) fs
      (compressAndSplit env fs (.ok reads) file T (some K)).1 := by
  have h0 : HeaderKept (chunkName file 0) (env.rand 0 ++ (checksum env K).take 4) fs
      (writeChunk env file (some K) (splitInit fs)).1 := by
    simp only [writeChunk, splitInit, hden, encryptWriter, aesNewCipher_valid hK]
    exact ⟨by simp, ⟨[], by simp [FS.append_files_same]⟩, rfl, rfl⟩
  have hloop := splitLoop_keeps_header env file T (some K) reads _ h0
  have hw : writeChunk env file (some K) (splitInit fs) =
      ((writeChunk env file (some K) (splitInit fs)).1, none) := by
    simp only [writeChunk, splitInit, hden, encryptWriter, aesNewCipher_valid hK]
    rfl
  unfold compressAndSplit
  simp only
  rw [hw]
  simp only
  cases hq : splitLoop env file T (some K) reads (writeChunk env file (some K) (splitInit fs)).1 with
  | error s1 => rw [hq] at hloop; exact hloop
  | ok s1 => rw [hq] at hloop; exact ⟨hloop.1, hloop.2.1, hloop.2.2⟩

end Header

/-! ## Key mismatch -/

theorem decryptReader_mismatch {σ : Type} {env : Env σ} (hl : env.Lawful) {K1 K2 : List Byte}
    (h2 : validKeyLen K2)
    (hdiff : (checksum env K1).take 4 ≠ (checksum env K2).take 4) (iv rest : List Byte)
    (hiv : iv.length = aesBlockSize) :
    decryptReader env (iv ++ (checksum env K1).take 4 ++ rest) K2 = (.error .keyMismatch, rest) := by
  have e1 := readFull_append iv ((checksum env K1).take 4 ++ rest)
  rw [hiv] at e1
  have h4 : ((checksum env K1).take 4).length = 4 := by simp [checksum, hl.sha_len]
  have e2 := readFull_append ((checksum env K1).take 4) rest
  rw [h4] at e2
  simp only [decryptReader, aesNewCipher_valid h2, List.append_assoc, e1, e2]
  rw [if_pos hdiff]

theorem osStat_create_ne (fs : FS) {n q : String} (h : q ≠ n) :
    osStat (fs.create n) q = osStat fs q := by
  simp [osStat, FS.create, h]

/-- C4. Key mismatch detection: for valid keys `K1`, `K2` whose first 4
bytes of SHA-256 differ, `decryptReader` with `K2` on a chunk framed by
`encryptWriter` with `K1` (the 20-byte header, then any bytes) returns the
key-mismatch error with exactly the bytes after the header left unread; and
`joinAndDecompress` with `K2` over what `compressAndSplit` with `K1` left,
for every source and threshold, returns an error, the file system being that
of the split with the destination created empty: no byte is written to the
destination. When `os.Stat` fails on no chunk up to `k`, the error is the
key-mismatch error for chunk 0 and that chunk is the only one opened. The
join is given fuel above some chunk index `k` that `os.Stat` does not find,
so that its size loop ends. -/
theorem key_mismatch_detected {σ : Type} (env : Env σ) (hl : env.Lawful) (K1 K2 : List Byte)
    (h1 : validKeyLen K1) (h2 : validKeyLen K2)
    (hdiff : (checksum env K1).take 4 ≠ (checksum env K2).take 4) :
    (∀ (fs : FS) (n : Nat) (w : String) (rest : List Byte),
      (encryptWriter env (fs.create w) n w K1).1.files w =
        some (env.rand n ++ (checksum env K1).take 4) ∧
      (env.rand n ++ (checksum env K1).take 4).length = 20 ∧
      decryptReader env (env.rand n ++ (checksum env K1).take 4 ++ rest) K2 =
        (.error .keyMismatch, rest)) ∧
    (∀ (fs : FS) (file : String) (T : Int) (reads : List ReadRes) (k fuel : Nat),
      fs.denied (chunkName file 0) = false → fs.denied (outFileName file) = false →
      (∀ n, osStat (compressAndSplit env fs (.ok reads) file T (some K1)).1.fs
        (chunkName file k) ≠ .size n) →
      k < fuel →
      ∃ st e, joinAndDecompress env fuel (compressAndSplit env fs (.ok reads) file T (some K1)).1.fs
          file (some K2) = some (st, .error e) ∧
        st.fs = (compressAndSplit env fs (.ok reads) file T (some K1)).1.fs.create
          (outFileName file) ∧
        st.fs.files (outFileName file) = some [] ∧
        ((∀ j, j ≤ k → fs.statFails (chunkName file j) = false) →
          e = .decrypting (chunkName file 0) .keyMismatch ∧ st.opened = [chunkName file 0])) := by
  constructor
  · intro fs n w rest
    refine ⟨?_, ?_, decryptReader_mismatch hl h2 hdiff _ rest (hl.rand_len n)⟩
    · simp [encryptWriter, aesNewCipher_valid h1, FS.append_files_same]
    · have := hl.rand_len n
      simp [checksum, hl.sha_len, this, aesBlockSize]
  · intro fs file T reads k fuel hd0 hdo hmiss hfuel
    obtain ⟨-, ⟨x, hx⟩, hden, hstat⟩ := compressAndSplit_keeps_header env fs file T reads h1 hd0
    generalize (compressAndSplit env fs (.ok reads) file T (some K1)).1.fs = fs1
      at hx hden hstat hmiss
    have hne : ∀ j, chunkName file j ≠ outFileName file :=
      fun j h => outFileName_ne_chunkName file j h.symm
    have hmiss1 : ∀ n, osStat (fs1.create (outFileName file)) (chunkName file k) ≠ .size n := by
      intro n
      rw [osStat_create_ne _ (hne k)]
      exact hmiss n
    obtain ⟨r, hr⟩ := totalSizeLoop_terminates (fs1.create (outFileName file)) file hmiss1
      fuel 0 0 (Nat.zero_le _) (by omega)
    obtain ⟨f, hf⟩ : ∃ f, fuel = f + 1 := ⟨fuel - 1, by omega⟩
    have hx1 : (fs1.create (outFileName file)).files (chunkName file 0) =
        some (env.rand 0 ++ (checksum env K1).take 4 ++ x) := by
      rw [FS.create_files_ne _ (hne 0)]; exact hx
    have hd1 : (fs1.create (outFileName file)).denied (chunkName file 0) = false := by
      rw [FS.create_denied, hden]; exact hd0
    have hdo1 : fs1.denied (outFileName file) = false := by rw [hden]; exact hdo
    cases r with
    | error e =>
      refine ⟨{ fs := fs1.create (outFileName file), totalSize := 0, written := 0,
                opened := [] }, e, ?_, rfl, by simp, ?_⟩
      · simp only [joinAndDecompress, hdo1, Bool.false_eq_true, if_false, hr]
      · intro hs
        exfalso
        have hsk : fs1.statFails (chunkName file k) = false := by
          rw [hstat]; exact hs k (le_refl _)
        have hfk : (fs1.create (outFileName file)).files (chunkName file k) = none := by
          rw [FS.create_files_ne _ (hne k)]
          cases hc : fs1.files (chunkName file k) with
          | none => rfl
          | some c => exact absurd (osStat_size hsk hc) (hmiss _)
        obtain ⟨t, ht⟩ := totalSizeLoop_ok (fs1.create (outFileName file)) file
          (fun j hj => by show fs1.statFails _ = false; rw [hstat]; exact hs j hj) hfk
          fuel 0 0 (Nat.zero_le _) (by omega)
        rw [ht] at hr
        simp at hr
    | ok t =>
      have hs0 : (fs1.create (outFileName file)).statFails (chunkName file 0) = false := by
        cases hc : (fs1.create (outFileName file)).statFails (chunkName file 0) with
        | false => rfl
        | true =>
          rw [hf, totalSizeLoop] at hr
          simp [osStat, hc] at hr
      refine ⟨{ fs := fs1.create (outFileName file), totalSize := t, written := 0,
                opened := [chunkName file 0] }, .decrypting (chunkName file 0) .keyMismatch,
              ?_, rfl, by simp, fun _ => ⟨rfl, rfl⟩⟩
      simp only [joinAndDecompress, hdo1, Bool.false_eq_true, if_false, hr]
      rw [hf, joinLoop]
      simp only [osStat_size hs0 hx1, osOpen_ok hd1 hx1, chunkReader,
        decryptReader_mismatch hl h2 hdiff _ x (hl.rand_len 0), List.nil_append, reduceCtorEq,
        if_false]

/-- C4 at a 3-byte source split with one 16-byte key and joined with
another. -/
theorem key_mismatch_detected_witness :
    validKeyLen key16 ∧ validKeyLen otherKey16 ∧
    (checksum toyEnv key16).take 4 ≠ (checksum toyEnv otherKey16).take 4 ∧
    ∃ st, joinAndDecompress toyEnv 2
        (compressAndSplit toyEnv emptyFS (.ok [⟨[1, 2, 3], .none⟩]) "f" 0 (some key16)).1.fs
        "f" (some otherKey16) = some (st, .error (.decrypting (chunkName "f" 0) .keyMismatch)) ∧
      st.fs.files (outFileName "f") = some [] := by
  refine ⟨by decide, by decide, by decide, ?_⟩
  obtain ⟨st, e, h1, -, h3, h4⟩ :=
    (key_mismatch_detected toyEnv toyEnv_lawful key16 otherKey16 (by decide) (by decide)
      (by decide)).2 emptyFS "f" 0 [⟨[1, 2, 3], .none⟩] 1 2 rfl rfl
      (fun n h => by
        have e : osStat
            (compressAndSplit toyEnv emptyFS (.ok [⟨[1, 2, 3], .none⟩]) "f" 0 (some key16)).1.fs
            (chunkName "f" 1) = .notExist := by decide
        rw [e] at h
        cases h)
      (by decide)
  rw [(h4 (fun _ _ => rfl)).1] at h1
  exact ⟨st, h1, h3⟩

/-! ## Where the code departs from the specification -/

/-- C3 on the code: a 25-byte source delivered by one read, threshold 10, no
key. The call returns `nil` with two chunks: the first holds 10 bytes, the
second the 15 bytes left, more than the threshold. -/
theorem threshold_exceeded_below_buffer :
    (compressAndSplit toyEnv emptyFS (.ok [⟨bytesUpTo 25, .none⟩]) "f" 10 none).2 = .ok ∧
    (compressAndSplit toyEnv emptyFS (.ok [⟨bytesUpTo 25, .none⟩]) "f" 10 none).1.part = 2 ∧
    (compressAndSplit toyEnv emptyFS (.ok [⟨bytesUpTo 25, .none⟩]) "f" 10 none).1.fs.files "f.00" =
      some ((bytesUpTo 25).take 10) ∧
    (compressAndSplit toyEnv emptyFS (.ok [⟨bytesUpTo 25, .none⟩]) "f" 10 none).1.fs.files "f.01" =
      some ((bytesUpTo 25).drop 10) ∧
    ((bytesUpTo 25).drop 10).length = 15 := by
  decide

/-- C7 on the code. A read that fails with an error other than `io.EOF` is
passed over: the loop reads on and the call returns `nil`. When `os.Create`
of the second chunk fails, the error is dropped, the writes that follow go to
the closed first chunk and are lost, and the call returns `nil`: of the
source `1, 2, 3` only `1, 2` is on disk. -/
theorem split_errors_swallowed :
    (compressAndSplit toyEnv emptyFS (.ok [⟨[], .fail⟩, ⟨[1, 2, 3], .none⟩]) "f" 0 none).2 = .ok ∧
    (compressAndSplit toyEnv emptyFS (.ok [⟨[], .fail⟩, ⟨[1, 2, 3], .none⟩]) "f" 0 none).1.fs.files
      "f.00" = some [1, 2, 3] ∧
    (compressAndSplit toyEnv noSecondChunkFS (.ok [⟨[1, 2], .none⟩, ⟨[3], .none⟩]) "f" 2 none).2
      = .ok ∧
    (compressAndSplit toyEnv noSecondChunkFS (.ok [⟨[1, 2], .none⟩, ⟨[3], .none⟩]) "f" 2
      none).1.fs.files "f.00" = some [1, 2] ∧
    (compressAndSplit toyEnv noSecondChunkFS (.ok [⟨[1, 2], .none⟩, ⟨[3], .none⟩]) "f" 2
      none).1.fs.files "f.01" = none := by
  decide

theorem planLoop_one_read (T : Int) (d : List Byte) (hT : 0 < T) (hd : (d.length : Int) = T) :
    planLoop T [⟨d, .none⟩] ([], []) = .ok ([], d) := by
  have h1 : ¬ (T > 0 ∧ (([] : List Byte).length : Int) + (d.length : Int) > T) := by
    rw [hd]; simp
  have h2 : planBuffer T d ([], []) = some ([], d) := by
    unfold planBuffer
    rw [if_neg h1]
    simp
  have h0 : 0 < d.length := by omega
  simp only [planLoop, h0, if_true, h2]
  simp

theorem planLoop_two_reads (T : Int) (d x : List Byte) (hT : 0 < T)
    (hd : (d.length : Int) = T) (hx : 0 < x.length) :
    planLoop T [⟨d, .none⟩, ⟨x, .none⟩] ([], []) = .ok ([d], x) := by
  have h1 : ¬ (T > 0 ∧ (([] : List Byte).length : Int) + (d.length : Int) > T) := by
    rw [hd]; simp
  have h2 : planBuffer T d ([], []) = some ([], d) := by
    unfold planBuffer
    rw [if_neg h1]
    simp
  have h3 : T > 0 ∧ (d.length : Int) + (x.length : Int) > T := by
    rw [hd]
    constructor <;> omega
  have h4 : planBuffer T x ([], d) = some ([d], x) := by
    unfold planBuffer
    simp only
    rw [if_pos h3, if_neg (by rw [hd]; simp)]
    simp [hd]
  have h0 : 0 < d.length := by omega
  simp only [planLoop, h0, hx, if_true, h2, h4]
  simp

/-- The counter of a split of 4096 bytes then 1 byte under the threshold
4096, whatever the 4096 bytes are. -/
theorem counter_after_full_buffer (d : List Byte) (hd : d.length = 4096) :
    ∃ s1 s2 : SplitState (Byte × Bool),
      splitLoop toyEnv "f" 4096 none [⟨d, .none⟩]
        (writeChunk toyEnv "f" none (splitInit emptyFS)).1 = .ok s1 ∧
      s1.written = 4096 ∧
      splitLoop toyEnv "f" 4096 none [⟨d, .none⟩, ⟨[1], .none⟩]
        (writeChunk toyEnv "f" none (splitInit emptyFS)).1 = .ok s2 ∧
      s2.written = 1 ∧
      s2.fs.files "f.00" = some d ∧ s2.fs.files "f.01" = some [1] := by
  have hl : (none : Option (List Byte)) ≠ none → toyEnv.Lawful := fun h => absurd rfl h
  have hdi : (d.length : Int) = 4096 := by rw [hd]; rfl
  obtain ⟨s0, h0, hr0⟩ := writeChunk_init (σ := Byte × Bool) "f" hl validKey_none emptyFS rfl
  rw [h0]
  have ha := splitLoop_refines hl validKey_none (emptyFS_denied "f") 4096
    [⟨d, .none⟩] ([], []) s0 hr0
  have hb := splitLoop_refines hl validKey_none (emptyFS_denied "f") 4096
    [⟨d, .none⟩, ⟨[1], .none⟩] ([], []) s0 hr0
  rw [planLoop_one_read 4096 d (by decide) hdi] at ha
  rw [planLoop_two_reads 4096 d [1] (by decide) hdi (by decide)] at hb
  obtain ⟨s1, e1, r1⟩ := ha
  obtain ⟨s2, e2, r2⟩ := hb
  refine ⟨s1, s2, e1, ?_, e2, ?_, ?_, ?_⟩
  · rw [r1.2]; exact hdi
  · rw [r2.2]; rfl
  · have := r2.1.disk.files 0 d rfl
    have e : chunkName "f" 0 = "f.00" := by decide
    rw [e] at this
    exact this
  · have := r2.1.disk.files 1 [1] rfl
    have e : chunkName "f" 1 = "f.01" := by decide
    rw [e] at this
    exact this

/-- C9 on the code: a 4097-byte source read as 4096 bytes then 1 byte,
threshold 4096, no key. After the first buffer the counter handed to
`showProgress` is 4096; after the second, with 4097 bytes written in all
(4096 in chunk 0 and 1 in chunk 1), the counter is 1. -/
theorem progress_counter_resets :
    ∃ s1 s2 : SplitState (Byte × Bool),
      splitLoop toyEnv "f" 4096 none [fullRead]
        (writeChunk toyEnv "f" none (splitInit emptyFS)).1 = .ok s1 ∧
      s1.written = 4096 ∧
      splitLoop toyEnv "f" 4096 none [fullRead, lastByteRead]
        (writeChunk toyEnv "f" none (splitInit emptyFS)).1 = .ok s2 ∧
      s2.written = 1 ∧
      s2.fs.files "f.00" = some (List.replicate 4096 0) ∧ s2.fs.files "f.01" = some [1] :=
  counter_after_full_buffer (List.replicate 4096 0) (List.length_replicate _ _)

/-! ## Round trip -/

theorem map_getD_range {α : Type} (l : List α) (d : α) :
    (List.range l.length).map (fun j => l.getD j d) = l := by
  apply List.ext_getElem?
  intro i
  by_cases hi : i < l.length
  · rw [List.getElem?_map, List.getElem?_range hi]
    simp [List.getD, List.getElem?_eq_getElem hi]
  · rw [List.getElem?_eq_none (by simp; omega), List.getElem?_eq_none (by omega)]

/-- A join over the chunk files a split left behind returns the plaintexts
of the chunks, in order. -/
theorem join_of_chunksOnDisk {σ : Type} {env : Env σ} {key : Option (List Byte)}
    (hl : key ≠ none → env.Lawful) (hk : validKey key) {fs fs1 : FS} {file : String}
    {chunks : List (List Byte)} (hd : ChunksOnDisk env fs file key chunks fs1)
    (hmiss : fs.files (chunkName file chunks.length) = none)
    (hh : ∀ i, fs.healthy (chunkName file i))
    (hout : fs.denied (outFileName file) = false) (fuel : Nat) (hfuel : chunks.length < fuel) :
    ∃ st, joinAndDecompress env fuel fs1 file key = some (st, .ok) ∧
      st.fs.files (outFileName file) = some chunks.flatten ∧
      st.opened = (List.range chunks.length).map (chunkName file) := by
  obtain ⟨f1, f2, f3⟩ := hd.faults
  obtain ⟨st, h1, h2, -, h4⟩ := joinAndDecompress_ok hl hk fs1 file chunks.length
    (fun j => chunks.getD j [])
    (by rw [hd.denied]; exact hout)
    (fun j hj => hd.files j _ (by simp [List.getD, List.getElem?_eq_getElem hj]))
    (by
      rw [hd.frame _ (fun i hi => (chunkName_ne_of_lt file hi).symm)]
      exact hmiss)
    (by rw [f1]; exact (hh _).2.1)
    (fun j _ => by
      unfold FS.healthy
      rw [hd.denied, f1, f2, f3]
      exact hh j)
    fuel hfuel
  rw [map_getD_range] at h2
  exact ⟨st, h1, h2, h4⟩

/-- Round trip where the threshold is zero or at least the size of the read
buffer: for every source delivered in reads of at most 4096 bytes and every
valid key or no key, when no chunk file of `file` exists beforehand and no
call fails on the paths involved, the split ends normally and the join over
what it left returns `nil` with the destination equal to the bytes
delivered. -/
theorem roundtrip_of_threshold_zero_or_ge_buffer {σ : Type} (env : Env σ)
    (key : Option (List Byte)) (hl : key ≠ none → env.Lawful) (hk : validKey key)
    (fs : FS) (file : String) (hh : ∀ i, fs.healthy (chunkName file i))
    (hout : fs.denied (outFileName file) = false)
    (hnew : ∀ i, fs.files (chunkName file i) = none)
    (T : Nat) (hT : T = 0 ∨ bufSize ≤ T) (reads : List ReadRes)
    (hr : ∀ r ∈ reads, r.data.length ≤ bufSize) :
    ∃ s : SplitState σ, compressAndSplit env fs (.ok reads) file T key = (s, .ok) ∧
      ∀ fuel, s.part < fuel →
        ∃ st, joinAndDecompress env fuel s.fs file key = some (st, .ok) ∧
          st.fs.files (outFileName file) = some (delivered reads) := by
  have hden : ∀ i, fs.denied (chunkName file i) = false := fun i => (hh i).1
  rcases hT with hT | hT
  · subst hT
    obtain ⟨s1, h1, hrel⟩ := split_unbounded (σ := σ) file hl hk fs hden (0 : Nat) (by simp) reads
    refine ⟨_, h1, ?_⟩
    intro fuel hfuel
    have hp : s1.part = 1 := hrel.1.part_eq
    obtain ⟨st, e1, e2, -⟩ := join_of_chunksOnDisk hl hk hrel.1.disk (hnew _) hh hout fuel
      (by
        have : s1.part < fuel := hfuel
        simp; omega)
    exact ⟨st, e1, by simpa using e2⟩
  · obtain ⟨s1, done, cur, h1, hrel, -, -, -, hfl⟩ :=
      split_bounded (σ := σ) file hl hk fs hden T hT reads hr
    refine ⟨_, h1, ?_⟩
    intro fuel hfuel
    have hp : s1.part = done.length + 1 := hrel.1.part_eq
    obtain ⟨st, e1, e2, -⟩ := join_of_chunksOnDisk hl hk hrel.1.disk (hnew _) hh hout fuel
      (by
        have : s1.part < fuel := hfuel
        simp; omega)
    exact ⟨st, e1, by rw [e2, hfl]⟩

theorem planLoop_panics_below_buffer (d : List Byte) (hd : d.length = 4096) :
    planLoop 10 [⟨d, .none⟩, ⟨[1], .none⟩] ([], []) = .error ([d.take 10], d.drop 10) := by
  have hdi : (d.length : Int) = 4096 := by rw [hd]; rfl
  have h1 : (10 : Int) > 0 ∧ (([] : List Byte).length : Int) + (d.length : Int) > 10 := by
    rw [hdi]; decide
  have h2 : planBuffer 10 d ([], []) = some ([d.take 10], d.drop 10) := by
    unfold planBuffer
    simp only
    rw [if_pos h1, if_neg (by decide)]
    rfl
  have hdl : ((d.drop 10).length : Int) = 4086 := by
    rw [List.length_drop, hd]; rfl
  have h3 : (10 : Int) > 0 ∧ ((d.drop 10).length : Int) + (([1] : List Byte).length : Int) > 10 := by
    rw [hdl]; decide
  have h4 : planBuffer 10 [1] ([d.take 10], d.drop 10) = none := by
    unfold planBuffer
    simp only
    rw [if_pos h3, if_pos (by rw [hdl]; decide)]
  have h0 : 0 < d.length := by omega
  simp only [planLoop, h0, if_true, h2, h4]
  simp

/-- A split of 4096 bytes then 1 byte under the threshold 10 panics, and the
join over what it left returns the 4096 bytes only. -/
theorem roundtrip_lost_below_buffer (d : List Byte) (hd : d.length = 4096) :
    ∃ (s : SplitState (Byte × Bool)) (st : JoinState),
      compressAndSplit toyEnv emptyFS (.ok [⟨d, .none⟩, ⟨[1], .none⟩]) "f" 10 none = (s, .panic) ∧
      joinAndDecompress toyEnv 3 s.fs "f" none = some (st, .ok) ∧
      st.fs.files "joined_f" = some d ∧
      sourceBytes [⟨d, .none⟩, ⟨[1], .none⟩] = d ++ [1] := by
  have hl : (none : Option (List Byte)) ≠ none → toyEnv.Lawful := fun h => absurd rfl h
  have href := compressAndSplit_refines (σ := Byte × Bool) "f" hl validKey_none emptyFS
    (emptyFS_denied "f") 10 [⟨d, .none⟩, ⟨[1], .none⟩]
  rw [planLoop_panics_below_buffer d hd] at href
  obtain ⟨s1, h1, hrel⟩ := href
  obtain ⟨st, e1, e2, -⟩ := join_of_chunksOnDisk hl validKey_none hrel.1.disk rfl
    (fun _ => ⟨rfl, rfl, rfl, rfl⟩) rfl 3 (by simp)
  refine ⟨s1, st, h1, e1, ?_, ?_⟩
  · have e : outFileName "f" = "joined_f" := by decide
    rw [e] at e2
    rw [e2]
    simp [List.take_append_drop]
  · simp [sourceBytes]

/-- C1 on the code: a 4097-byte source read as 4096 bytes then 1 byte,
threshold 10, no key. The second buffer computes the split offset
`10 - 4086 < 0` and the call panics; the chunk files hold the first 4096
bytes only, so the join over them returns 4096 bytes where the source has
4097. -/
theorem roundtrip_fails_below_buffer :
    ∃ (s : SplitState (Byte × Bool)) (st : JoinState),
      compressAndSplit toyEnv emptyFS (.ok [fullRead, lastByteRead]) "f" 10 none = (s, .panic) ∧
      joinAndDecompress toyEnv 3 s.fs "f" none = some (st, .ok) ∧
      st.fs.files "joined_f" = some (List.replicate 4096 0) ∧
      sourceBytes [fullRead, lastByteRead] = List.replicate 4096 0 ++ [1] :=
  roundtrip_lost_below_buffer (List.replicate 4096 0) (List.length_replicate _ _)

/-! ## Key length validation -/

/-- C6 fails as stated. With a 15-byte key `compressAndSplit` returns the
key-size error only after it has created the first chunk file, which was not
there before; and `joinAndDecompress`, when there is no chunk to join, returns
`nil` and leaves the destination file created. -/
theorem key_length_counterexample :
    ¬ validKeyLen key15 ∧
    (compressAndSplit toyEnv emptyFS (.ok [⟨[1, 2, 3], .none⟩]) "f" 0 (some key15)).2 =
      .error (.keySize 15) ∧
    (compressAndSplit toyEnv emptyFS (.ok [⟨[1, 2, 3], .none⟩]) "f" 0 (some key15)).1.fs.files
      "f.00" = some [] ∧
    emptyFS.files "f.00" = none ∧
    (joinAndDecompress toyEnv 1 emptyFS "f" (some key15)).map (fun r => r.2) = some .ok ∧
    (joinAndDecompress toyEnv 1 emptyFS "f" (some key15)).map (fun r => r.1.fs.files "joined_f") =
      some (some []) ∧
    emptyFS.files "joined_f" = none := by
  decide

/-- C6, as amended. Key length validation: for every key whose length is not
16, 24 or 32 bytes, `main`, given that key, exits with status 1 before it
calls `compressAndSplit` or `joinAndDecompress`, leaving the file system
unchanged. Called with such a key, `compressAndSplit`, when `os.Create` of
the first chunk succeeds, returns the key-size error having created the first
chunk file, empty, and changed nothing else; `joinAndDecompress`, when
`os.Create` of the destination succeeds, creates the destination, empty,
changes nothing else, and returns the key-size error when chunk 0 exists, can
be opened, and `os.Stat` fails on no chunk up to the first absent one, and
`nil` when `os.Stat` reports chunk 0 as not existing. -/
theorem key_length_validated_in_main {σ : Type} (env : Env σ)
    (hexDecodeString : String → Option (List Byte)) (parseInt : String → Int) (fuel : Nat)
    (fs : FS) (k : List Byte) (hbad : ¬ validKeyLen k) :
    (∀ (input : Except Err (List ReadRes)) (flags : Flags),
      flags.version = false → ¬ (flags.compressFile = "" ∧ flags.decompressFile = "") →
      flags.encryptionKey ≠ "" → hexDecodeString flags.encryptionKey = some k →
      main env hexDecodeString parseInt fuel fs input flags = some (fs, .failure)) ∧
    (∀ (reads : List ReadRes) (file : String) (T : Int),
      fs.denied (chunkName file 0) = false →
      ∃ s : SplitState σ,
        compressAndSplit env fs (.ok reads) file T (some k) = (s, .error (.keySize k.length)) ∧
        s.fs = fs.create (chunkName file 0)) ∧
    (∀ (base : String), fs.denied (outFileName base) = false →
      (∀ c n, fs.files (chunkName base 0) = some c → fs.denied (chunkName base 0) = false →
        (∀ j, j ≤ n → fs.statFails (chunkName base j) = false) →
        fs.files (chunkName base n) = none → n < fuel →
        ∃ st, joinAndDecompress env fuel fs base (some k) =
            some (st, .error (.decrypting (chunkName base 0) (.keySize k.length))) ∧
          st.fs = fs.create (outFileName base)) ∧
      (osStat fs (chunkName base 0) = .notExist → 0 < fuel →
        ∃ st, joinAndDecompress env fuel fs base (some k) = some (st, .ok) ∧
          st.fs = fs.create (outFileName base))) := by
  have hnc : aesNewCipher k = .error (.keySize k.length) := by simp [aesNewCipher, hbad]
  refine ⟨?_, ?_, ?_⟩
  · intro input flags hv hcd he hdec
    have hlen : k.length ≠ 16 ∧ k.length ≠ 24 ∧ k.length ≠ 32 := by
      unfold validKeyLen at hbad
      omega
    simp only [main, hv, Bool.false_eq_true, if_false, hcd, he, ne_eq, not_false_eq_true,
      if_true, hdec, hlen, and_self]
  · intro reads file T hd
    refine ⟨(compressAndSplit env fs (.ok reads) file T (some k)).1, ?_, ?_⟩
    · simp [compressAndSplit, writeChunk, splitInit, hd, encryptWriter, hnc]
    · simp [compressAndSplit, writeChunk, splitInit, hd, encryptWriter, hnc]
  · intro base hout
    have hne : ∀ j, chunkName base j ≠ outFileName base :=
      fun j h => outFileName_ne_chunkName base j h.symm
    constructor
    · intro c n hc hd hs hmiss hfuel
      have hmiss1 : (fs.create (outFileName base)).files (chunkName base n) = none := by
        rw [FS.create_files_ne _ (hne n)]; exact hmiss
      obtain ⟨t, ht⟩ := totalSizeLoop_ok (fs.create (outFileName base)) base
        (fun j hj => hs j hj) hmiss1 fuel 0 0 (Nat.zero_le _) (by omega)
      obtain ⟨f, hf⟩ : ∃ f, fuel = f + 1 := ⟨fuel - 1, by omega⟩
      have hc1 : (fs.create (outFileName base)).files (chunkName base 0) = some c := by
        rw [FS.create_files_ne _ (hne 0)]; exact hc
      have hs0 : (fs.create (outFileName base)).statFails (chunkName base 0) = false :=
        hs 0 (Nat.zero_le _)
      have hd0 : (fs.create (outFileName base)).denied (chunkName base 0) = false := hd
      refine ⟨{ fs := fs.create (outFileName base), totalSize := t, written := 0,
                opened := [chunkName base 0] }, ?_, rfl⟩
      simp only [joinAndDecompress, hout, Bool.false_eq_true, if_false, ht]
      rw [hf, joinLoop]
      simp only [osStat_size hs0 hc1, osOpen_ok hd0 hc1, chunkReader, decryptReader, hnc,
        reduceCtorEq, if_false]
      rfl
    · intro hc hfuel
      have hc1 : osStat (fs.create (outFileName base)) (chunkName base 0) = .notExist := by
        rw [osStat_create_ne _ (hne 0)]; exact hc
      obtain ⟨f, hf⟩ : ∃ f, fuel = f + 1 := ⟨fuel - 1, by omega⟩
      refine ⟨{ fs := fs.create (outFileName base), totalSize := 0, written := 0,
                opened := [] }, ?_, rfl⟩
      simp only [joinAndDecompress, hout, Bool.false_eq_true, if_false]
      rw [hf]
      simp [totalSizeLoop, joinLoop, hc1]

/-- The amended C6 at a 15-byte key: `main` exits with status 1 on the
untouched file system. -/
theorem key_length_validated_in_main_witness :
    ¬ validKeyLen key15 ∧
    main toyEnv (fun _ => some key15) (fun _ => 0) 1 emptyFS (.ok [⟨[1, 2, 3], .none⟩])
      splitFlags = some (emptyFS, .failure) :=
  ⟨by decide,
    (key_length_validated_in_main toyEnv (fun _ => some key15) (fun _ => 0) 1 emptyFS key15
      (by decide)).1 (.ok [⟨[1, 2, 3], .none⟩]) splitFlags rfl (by decide) (by decide) rfl⟩

end Xtar
